import Mathlib

/-!
Verification of the trivy-viewer storage layer: a shallow embedding of the
server's path policy, the four storage providers (S3, GCS, Azure, local
filesystem), the JSON serialization used by `saveFile`/`getFile`, and the
HTTP handlers' pure decision logic.  JavaScript strings are modelled as
`List Char` (wrapped into `String` at the interface), machine numbers as
`Nat`/`Int`, the asynchronous backends as explicit response values or
key-value stores, and JS truthiness is made explicit where the code relies
on it.
-/

namespace TrivyViewer

/-! ## JavaScript string primitives, modelled over `List Char` -/

/-- JS `String.prototype.split('/')`: splits on every `'/'`, keeping empty
segments; `''.split('/') = ['']`. -/
def splitSlash : List Char → List (List Char)
  | [] => [[]]
  | c :: cs =>
    match splitSlash cs with
    | [] => [[]]
    | s :: ss => if c = '/' then [] :: s :: ss else (c :: s) :: ss

/-- JS `Array.prototype.join('/')`. -/
def joinSlash : List (List Char) → List Char
  | [] => []
  | [s] => s
  | s :: ss => s ++ '/' :: joinSlash ss

/-- JS `String.prototype.startsWith`. -/
def jsStartsWith (s pfx : String) : Bool :=
  pfx.data.isPrefixOf s.data

/-- JS `String.prototype.endsWith`. -/
def jsEndsWith (s suffx : String) : Bool :=
  suffx.data.isSuffixOf s.data

/-- JS `x || null` applied to an optional string: `undefined`, `null` and the
empty string (all falsy) collapse to `null`. -/
def jsOrNull : Option String → Option String
  | none => none
  | some s => if s = "" then none else some s

/-- JS `!!x` for an optional string: truthy exactly when present and
non-empty. -/
def jsTruthyStr : Option String → Bool
  | none => false
  | some s => s ≠ ""

/-! ## Decimal printing and parsing (JS `String(n)` / `parseInt(s, 10)`) -/

/-- Big-endian decimal digits of `n`, by fuel-based division; `natChars`
below supplies the fuel and the special case `0 ↦ "0"`. -/
def natCharsAux : Nat → Nat → List Char
  | 0, _ => []
  | fuel + 1, n => if n = 0 then [] else natCharsAux fuel (n / 10) ++ [Nat.digitChar (n % 10)]

/-- Decimal representation of a natural number, as JS `String(n)` prints it. -/
def natChars (n : Nat) : List Char :=
  if n = 0 then ['0'] else natCharsAux n n

/-- Value of a big-endian digit string. -/
def digitsVal (ds : List Char) : Nat :=
  ds.foldl (fun a c => a * 10 + (c.toNat - 48)) 0

/-- Maximal digit prefix of `cs` with its value, and the rest; `none` when
`cs` does not start with a digit (JS `parseInt` yielding `NaN`). -/
def parseNat (cs : List Char) : Option (Nat × List Char) :=
  let ds := cs.takeWhile Char.isDigit
  if ds.isEmpty then none else some (digitsVal ds, cs.dropWhile Char.isDigit)

/-- JS `parseInt(s, 10)` on the token strings the providers produce: the
value of the maximal digit prefix, `none` for `NaN`. -/
def parseIntNat (s : String) : Option Nat :=
  (parseNat s.data).map (fun p => p.1)

/-! ### Correctness of decimal printing/parsing -/

theorem natCharsAux_ne_nil {fuel n : Nat} (hn : 0 < n) (hf : n ≤ fuel) :
    natCharsAux fuel n ≠ [] := by
  cases fuel with
  | zero => omega
  | succ f =>
    simp only [natCharsAux, if_neg (Nat.pos_iff_ne_zero.mp hn)]
    intro h
    exact absurd (List.append_eq_nil.mp h).2 (by simp)

theorem digit_isDigit {d : Nat} (h : d < 10) : (Nat.digitChar d).isDigit = true := by
  interval_cases d <;> decide

theorem digit_toNat {d : Nat} (h : d < 10) : (Nat.digitChar d).toNat - 48 = d := by
  interval_cases d <;> decide

theorem natCharsAux_digits {fuel n : Nat} (hf : n ≤ fuel) :
    ∀ c ∈ natCharsAux fuel n, c.isDigit = true := by
  induction fuel generalizing n with
  | zero => simp [natCharsAux]
  | succ f ih =>
    intro c hc
    by_cases h0 : n = 0
    · simp [natCharsAux, h0] at hc
    · simp only [natCharsAux, if_neg h0, List.mem_append, List.mem_singleton] at hc
      rcases hc with hc | hc
      · exact ih (by omega) c hc
      · subst hc; exact digit_isDigit (Nat.mod_lt _ (by norm_num))

theorem natChars_digits (n : Nat) : ∀ c ∈ natChars n, c.isDigit = true := by
  unfold natChars
  by_cases h0 : n = 0
  · simp [h0]
  · simp only [if_neg h0]
    exact natCharsAux_digits le_rfl

theorem natChars_ne_nil (n : Nat) : natChars n ≠ [] := by
  unfold natChars
  by_cases h0 : n = 0
  · simp [h0]
  · simp only [if_neg h0]
    exact natCharsAux_ne_nil (Nat.pos_iff_ne_zero.mpr h0) le_rfl

theorem foldl_natCharsAux {fuel n : Nat} (hf : n ≤ fuel) (a : Nat) :
    (natCharsAux fuel n).foldl (fun a c => a * 10 + (c.toNat - 48)) a =
      a * 10 ^ (natCharsAux fuel n).length + n := by
  induction fuel generalizing n a with
  | zero =>
    have : n = 0 := by omega
    simp [natCharsAux, this]
  | succ f ih =>
    by_cases h0 : n = 0
    · simp [natCharsAux, h0]
    · have hdiv : n / 10 ≤ f := by
        have := Nat.div_lt_self (Nat.pos_iff_ne_zero.mpr h0) (by norm_num : 1 < 10)
        omega
      simp only [natCharsAux, if_neg h0, List.foldl_append, List.foldl_cons, List.foldl_nil,
        List.length_append, List.length_cons, List.length_nil]
      rw [ih hdiv a, digit_toNat (Nat.mod_lt _ (by norm_num))]
      rw [pow_succ]
      have := Nat.div_add_mod n 10
      ring_nf
      omega

theorem digitsVal_natChars (n : Nat) : digitsVal (natChars n) = n := by
  unfold natChars digitsVal
  by_cases h0 : n = 0
  · simp [h0]
  · simp only [if_neg h0]
    rw [foldl_natCharsAux le_rfl 0]
    simp

theorem takeWhile_append_all {p : Char → Bool} {xs : List Char} (h : ∀ c ∈ xs, p c = true)
    (ys : List Char) : (xs ++ ys).takeWhile p = xs ++ ys.takeWhile p := by
  induction xs with
  | nil => simp
  | cons x xs ih =>
    have hx : p x = true := h x (by simp)
    simp only [List.cons_append, List.takeWhile_cons, hx]
    rw [ih (fun c hc => h c (by simp [hc]))]
    simp

theorem dropWhile_append_all {p : Char → Bool} {xs : List Char} (h : ∀ c ∈ xs, p c = true)
    (ys : List Char) : (xs ++ ys).dropWhile p = ys.dropWhile p := by
  induction xs with
  | nil => simp
  | cons x xs ih =>
    have hx : p x = true := h x (by simp)
    simp only [List.cons_append, List.dropWhile_cons, hx]
    exact ih (fun c hc => h c (by simp [hc]))

/-- Suffixes after which greedy digit parsing is unambiguous. -/
def numSafe : List Char → Prop
  | [] => True
  | c :: _ => c.isDigit = false

theorem takeWhile_not_head {p : Char → Bool} : ∀ {ys : List Char},
    (∀ c, ys.head? = some c → p c = false) → ys.takeWhile p = []
  | [], _ => rfl
  | y :: ys, h => by simp [List.takeWhile_cons, h y rfl]

theorem dropWhile_not_head {p : Char → Bool} : ∀ {ys : List Char},
    (∀ c, ys.head? = some c → p c = false) → ys.dropWhile p = ys
  | [], _ => rfl
  | y :: ys, h => by simp [List.dropWhile_cons, h y rfl]

theorem parseNat_natChars (n : Nat) {rest : List Char} (h : numSafe rest) :
    parseNat (natChars n ++ rest) = some (n, rest) := by
  have hdigits := natChars_digits n
  have hrest : ∀ c, rest.head? = some c → c.isDigit = false := by
    intro c hc
    cases rest with
    | nil => simp at hc
    | cons r rs =>
      simp only [List.head?_cons, Option.some_inj] at hc
      subst hc; exact h
  unfold parseNat
  rw [takeWhile_append_all hdigits rest, dropWhile_append_all hdigits rest,
    takeWhile_not_head hrest, dropWhile_not_head hrest, List.append_nil]
  have hne := natChars_ne_nil n
  simp only [List.isEmpty_iff, if_neg hne]
  rw [show digitsVal (natChars n) = n from digitsVal_natChars n]

theorem parseIntNat_natChars (n : Nat) : parseIntNat ⟨natChars n⟩ = some n := by
  unfold parseIntNat
  rw [show (String.mk (natChars n)).data = natChars n ++ [] by simp]
  rw [parseNat_natChars n (by simp [numSafe])]
  rfl

/-! ## Path/Key policy: sanitizer, filename validator, path computations -/

/-- Sub-path sanitizer from the `GET /api/files` handler (server.js):
`subPath.split('/').filter(p => p && p !== '..').join('/')` — empty
segments are falsy, so the filter drops every empty and every `".."`
segment. -/
def sanitizedPath (subPath : String) : String :=
  ⟨joinSlash ((splitSlash subPath.data).filter (fun p => !p.isEmpty && p ≠ ['.', '.']))⟩

/-- Modelled from the spec's words, for comparison with `sanitizedPath`:
"a client-supplied relative path is split on `/`, every empty segment and
every literal `..` segment is dropped, and the remainder is rejoined". -/
def sanitizeSpec (subPath : String) : String :=
  ⟨joinSlash ((splitSlash subPath.data).filter (fun p => !(p = [] ∨ p = ['.', '.'])))⟩

/-- Character class `[\w\-. ]` of the upload filename regex (JS `\w` is
ASCII letters, digits and underscore). -/
def isStemChar (c : Char) : Bool :=
  c.isAlpha || c.isDigit || c = '_' || c = '-' || c = '.' || c = ' '

/-- Upload filename validator from the `POST /api/files/upload` handler:
embeds the regex `/^[\w\-. ]+\.json$/i` — a non-empty stem of characters
from `[\w\-. ]` followed by a case-insensitive literal `.json`.  Since the
suffix has fixed length 5, a match exists exactly when the string splits at
position `length - 5`. -/
def validFilename (s : String) : Bool :=
  let cs := s.data
  decide (5 < cs.length) &&
    ((cs.drop (cs.length - 5)).map Char.toLower == ['.', 'j', 's', 'o', 'n']) &&
    (cs.take (cs.length - 5)).all isStemChar

/-- Modelled from the spec's words, for comparison with `validFilename`:
"must match a pattern permitting only letters, digits, underscore, hyphen,
dot, and space in the stem, with a mandatory case-insensitive `.json`
suffix". -/
def filenameSpec (s : String) : Prop :=
  ∃ stem ext : List Char,
    s.data = stem ++ ext ∧ stem ≠ [] ∧ (∀ c ∈ stem, isStemChar c = true) ∧
      ext.map Char.toLower = ['.', 'j', 's', 'o', 'n']

/-! ### Node `path` module, modelled for the handlers' inputs -/

/-- Resolution of `.`, `..`, empty and `.` segments, as Node
`path.normalize` does over the already-split segment list (`isAbs` tells
whether the path is absolute, where excess `..` segments are dropped). -/
def normSegsAux (isAbs : Bool) : List (List Char) → List (List Char) → List (List Char)
  | acc, [] => acc.reverse
  | acc, seg :: rest =>
    if seg = [] ∨ seg = ['.'] then normSegsAux isAbs acc rest
    else if seg = ['.', '.'] then
      match acc with
      | top :: acc' =>
        if top = ['.', '.'] then normSegsAux isAbs (seg :: top :: acc') rest
        else normSegsAux isAbs acc' rest
      | [] => if isAbs then normSegsAux isAbs [] rest else normSegsAux isAbs [seg] rest
    else normSegsAux isAbs (seg :: acc) rest

/-- Node `path.normalize`, modelled for paths without a significant trailing
slash (the handlers' keys and directories never end in `/`). -/
def pathNormalize (p : String) : String :=
  let isAbs := jsStartsWith p "/"
  let body := joinSlash (normSegsAux isAbs [] (splitSlash p.data))
  if isAbs then ⟨'/' :: body⟩
  else if body = [] then "." else ⟨body⟩

/-- Node `path.join(a, b)`: empty parts are dropped, the rest joined with
`'/'` and normalized; a `'/'`-leading second part does NOT restart from the
root (unlike `path.resolve`). -/
def pathJoin (a b : String) : String :=
  if a = "" then (if b = "" then "." else pathNormalize b)
  else if b = "" then pathNormalize a
  else pathNormalize (a ++ "/" ++ b)

/-- Node `path.resolve` on a single argument, modelled for the absolute base
paths the provider is configured with (a relative argument would be resolved
against the process working directory, taken here to be `/`). -/
def pathResolve (p : String) : String :=
  if jsStartsWith p "/" then pathNormalize p else pathNormalize ("/" ++ p)

/-- Node `path.basename`, modelled for paths without a trailing slash: the
last non-empty `/`-separated segment. -/
def pathBasename (p : String) : String :=
  match ((splitSlash p.data).filter (fun s => !s.isEmpty)).getLast? with
  | some s => ⟨s⟩
  | none => ""

/-! ### Provider path construction -/

/-- `S3StorageProvider` constructor: `` `${prefix}/active`.replace(/^\//, '') ``
— one leading slash is stripped. -/
def stripLeadSlash (s : String) : String :=
  if s.data.head? = some '/' then ⟨s.data.tail⟩ else s

/-- `activePath` of the S3 provider. -/
def s3ActivePath (pfx : String) : String := stripLeadSlash (pfx ++ "/active")

/-- `archivedPath` of the S3 provider. -/
def s3ArchivedPath (pfx : String) : String := stripLeadSlash (pfx ++ "/archived")

/-- `activePath` of the GCS and Azure providers:
`prefix ? `${prefix}/active` : 'active'`. -/
def gcsActivePath (pfx : String) : String :=
  if pfx = "" then "active" else pfx ++ "/active"

/-- `archivedPath` of the GCS and Azure providers. -/
def gcsArchivedPath (pfx : String) : String :=
  if pfx = "" then "archived" else pfx ++ "/archived"

/-- `FilesystemStorageProvider` constructor: `prefixPath` is
`prefix ? path.join(basePath, prefix) : basePath` over the resolved base. -/
def fsPrefixPath (basePath pfx : String) : String :=
  if pfx = "" then pathResolve basePath else pathJoin (pathResolve basePath) pfx

/-- `activePath` of the filesystem provider: `path.join(prefixPath, 'active')`. -/
def fsActivePath (basePath pfx : String) : String :=
  pathJoin (fsPrefixPath basePath pfx) "active"

/-- Key qualification in the `GET /api/files/:key` handler: the key is
compared against (and, when it does not match, prefixed with) the literal
string `` `${storageProvider.prefix}/active/` `` — not the provider's
`activePath`. -/
def fetchQualify (pfx key : String) : String :=
  if jsStartsWith key (pfx ++ "/active/") then key else pfx ++ "/active/" ++ key

/-! ## Claim C6: the sub-path sanitizer -/

/-- C6: the sub-path sanitizer splits on `/`, drops every empty and every
literal `..` segment and rejoins with `/`; it agrees with the spec's
drop-segment rule on every input, and in particular sends `"../../etc"` to
`"etc"` and `"a/../b"` to `"a/b"`. -/
theorem C6_sanitizer :
    (∀ s : String, sanitizedPath s = sanitizeSpec s) ∧
      sanitizedPath "../../etc" = "etc" ∧ sanitizedPath "a/../b" = "a/b" := by
  refine ⟨fun s => ?_, by decide, by decide⟩
  unfold sanitizedPath sanitizeSpec
  congr 1
  congr 1
  apply List.filter_congr
  intro p _
  cases p with
  | nil => decide
  | cons c cs => simp [List.isEmpty, decide_eq_true_eq]

/-! ## Claim C7: the upload filename validator -/

theorem length_eq_of_map_toLower {ext : List Char}
    (h : ext.map Char.toLower = ['.', 'j', 's', 'o', 'n']) : ext.length = 5 := by
  have := congrArg List.length h
  simpa using this

/-- C7: the validator accepts exactly the filenames made of a non-empty stem
over letters, digits, underscore, hyphen, dot and space followed by a
case-insensitive `.json` suffix; it accepts `report-1.json` and
`My Report.JSON` and rejects `../evil.json`, `report.txt` and
`report.json.exe`. -/
theorem C7_filenameValidator :
    (∀ s : String, validFilename s = true ↔ filenameSpec s) ∧
      validFilename "report-1.json" = true ∧ validFilename "My Report.JSON" = true ∧
      validFilename "../evil.json" = false ∧ validFilename "report.txt" = false ∧
      validFilename "report.json.exe" = false := by
  refine ⟨fun s => ?_, by decide, by decide, by decide, by decide, by decide⟩
  unfold validFilename filenameSpec
  simp only [Bool.and_eq_true, decide_eq_true_eq, beq_iff_eq, List.all_eq_true]
  constructor
  · rintro ⟨⟨hlen, hext⟩, hstem⟩
    refine ⟨s.data.take (s.data.length - 5), s.data.drop (s.data.length - 5),
      (List.take_append_drop _ _).symm, ?_, hstem, hext⟩
    intro hnil
    have h1 : (s.data.take (s.data.length - 5)).length = 0 := by rw [hnil]; rfl
    rw [List.length_take] at h1
    omega
  · rintro ⟨stem, ext, hsplit, hne, hstem, hext⟩
    have hx : ext.length = 5 := length_eq_of_map_toLower hext
    have hlen : s.data.length = stem.length + 5 := by
      rw [hsplit, List.length_append, hx]
    have htake : s.data.take (s.data.length - 5) = stem := by
      rw [hsplit, List.length_append, hx, Nat.add_sub_cancel, List.take_left]
    have hdrop : s.data.drop (s.data.length - 5) = ext := by
      rw [hsplit, List.length_append, hx, Nat.add_sub_cancel, List.drop_left]
    refine ⟨⟨?_, by rw [hdrop]; exact hext⟩, by rw [htake]; exact hstem⟩
    have : stem.length ≠ 0 := fun h => hne (List.length_eq_zero.mp h)
    omega

/-! ## Claim C3: key qualification in the fetch handler -/

/-- C3 counterexample: with an empty prefix (GCS/Azure provider) the
`activePath` is `"active"`, and the key `"active/report.json"` starts with
it; yet the fetch handler, which tests against `` `${prefix}/active/` `` =
`"/active/"`, does not pass it unchanged but rewrites it to
`"/active/active/report.json"`. -/
theorem C3_counterexample :
    jsStartsWith "active/report.json" (gcsActivePath "") = true ∧
      fetchQualify "" "active/report.json" ≠ "active/report.json" ∧
      fetchQualify "" "active/report.json" = "/active/active/report.json" := by
  refine ⟨by decide, by decide, by decide⟩

theorem data_eq_nil_iff {s : String} (h : s.data = []) : s = "" := by
  cases s with
  | mk d =>
    simp only [] at h
    subst h
    decide

/-- C3 amended: the fetch handler qualifies against the literal string
`prefix ++ "/active/"`: a key starting with it is passed to `getFile`
unchanged, any other key is prefixed with it.  When the configured prefix is
non-empty and has no leading slash this string coincides with
`activePath ++ "/"` for the S3, GCS and Azure providers, and the claim's
activePath-based description is accurate; with an empty prefix it is not
(the counterexample). -/
theorem C3_fetchQualification (pfx key : String) (hne : pfx ≠ "")
    (hsl : jsStartsWith pfx "/" = false) :
    gcsActivePath pfx = pfx ++ "/active" ∧ s3ActivePath pfx = pfx ++ "/active" ∧
      (jsStartsWith key (gcsActivePath pfx ++ "/") = true → fetchQualify pfx key = key) ∧
      (jsStartsWith key (gcsActivePath pfx ++ "/") = false →
        fetchQualify pfx key = gcsActivePath pfx ++ "/" ++ key) := by
  have hg : gcsActivePath pfx = pfx ++ "/active" := by
    unfold gcsActivePath
    rw [if_neg hne]
  obtain ⟨p, ps, hp⟩ : ∃ p ps, pfx.data = p :: ps := by
    cases hd : pfx.data with
    | nil => exact absurd (data_eq_nil_iff hd) hne
    | cons p ps => exact ⟨p, ps, rfl⟩
  have hpne : p ≠ '/' := by
    intro hc
    subst hc
    apply absurd hsl
    unfold jsStartsWith
    simp [hp, List.isPrefixOf]
  have hs : s3ActivePath pfx = pfx ++ "/active" := by
    unfold s3ActivePath stripLeadSlash
    have hh : (pfx ++ "/active").data.head? = some p := by
      rw [String.data_append, hp]
      rfl
    rw [if_neg]
    rw [hh]
    simp [hpne]
  have hq : pfx ++ "/active/" = gcsActivePath pfx ++ "/" := by
    rw [hg]
    have : ("/active" : String) ++ "/" = "/active/" := by decide
    rw [String.append_assoc, this]
  refine ⟨hg, hs, ?_, ?_⟩
  · intro hkey
    unfold fetchQualify
    rw [hq, if_pos hkey]
  · intro hkey
    unfold fetchQualify
    rw [hq, if_neg (by rw [hkey]; exact Bool.false_ne_true)]

/-- C3 witness: the amended statement evaluated at prefix `"pref"` and the
keys `"pref/active/x.json"` (passed unchanged) and `"x.json"` (prefixed). -/
theorem C3_fetchQualification_witness :
    fetchQualify "pref" "pref/active/x.json" = "pref/active/x.json" ∧
      fetchQualify "pref" "x.json" = gcsActivePath "pref" ++ "/" ++ "x.json" ∧
      s3ActivePath "pref" = "pref" ++ "/active" :=
  ⟨(C3_fetchQualification "pref" "pref/active/x.json" (by decide) (by decide)).2.2.1 (by decide),
   (C3_fetchQualification "pref" "x.json" (by decide) (by decide)).2.2.2 (by decide),
   (C3_fetchQualification "pref" "x.json" (by decide) (by decide)).2.1⟩

/-! ## Provider `listFiles` models

Each backend call is modelled by a pure function from the request
parameters and the backend's (external) response to the page the provider
returns. -/

/-- `subPath.endsWith('/') ? subPath : subPath + '/'`. -/
def ensureSlash (s : String) : String :=
  if jsEndsWith s "/" then s else s ++ "/"

/-- Display name of a backend directory prefix:
`dirPath.slice(0, -1).split('/').pop()`. -/
def dirNameOf (dirPath : String) : String :=
  match (splitSlash dirPath.data.dropLast).getLast? with
  | some s => ⟨s⟩
  | none => ""

/-- Entry shape produced by the S3 and GCS providers (`type` is `"file"` or
`"directory"`; size and date are absent on directory entries). -/
structure ObjEntry where
  key : String
  name : String
  size : Option Nat
  lastModified : Option Int
  type : String
deriving DecidableEq

/-- A `listFiles` result page. -/
structure ListPage (α : Type) where
  files : List α
  nextContinuationToken : Option String
  hasMore : Bool
deriving DecidableEq

/-- One object of an S3 `ListObjectsV2` response. -/
structure S3Object where
  Key : String
  Size : Nat
  LastModified : Int
deriving DecidableEq

/-- The fields of an S3 `ListObjectsV2` response the provider reads.  The
backend is external: the response is a parameter, unconstrained here. -/
structure S3ListResponse where
  Contents : List S3Object
  CommonPrefixes : List String
  NextContinuationToken : Option String
  IsTruncated : Bool
deriving DecidableEq

/-- `S3StorageProvider.listFiles`: prefixes become `directory` entries, the
`.json`-suffixed contents (minus the prefix marker itself) become `file`
entries, directories first; `hasMore` is the backend's `IsTruncated` and the
token the backend's `NextContinuationToken || null` — two independent
response fields. -/
def dirEntryOf (dirPath : String) : ObjEntry :=
  { key := dirPath, name := dirNameOf dirPath, size := none, lastModified := none,
    type := "directory" }

/-- The `file` entry the S3 provider builds from one listed object. -/
def s3FileEntry (obj : S3Object) : ObjEntry :=
  { key := obj.Key, name := pathBasename obj.Key, size := some obj.Size,
    lastModified := some obj.LastModified, type := "file" }

def s3ListFiles (subPath : String) (limit : Nat) (continuationToken : Option String)
    (resp : S3ListResponse) : ListPage ObjEntry :=
  let pfxString := ensureSlash subPath
  let directories := resp.CommonPrefixes.map dirEntryOf
  let files := (resp.Contents.filter
      (fun obj => jsEndsWith obj.Key ".json" && obj.Key != pfxString)).map s3FileEntry
  { files := directories ++ files
    nextContinuationToken := jsOrNull resp.NextContinuationToken
    hasMore := resp.IsTruncated }

/-- One file of a GCS `getFiles` response. -/
structure GcsFile where
  name : String
  size : Nat
  updated : Int
deriving DecidableEq

/-- The parts of a GCS `getFiles` response the provider reads
(`nextPageToken` stands for `nextQuery?.pageToken`). -/
structure GcsListResponse where
  files : List GcsFile
  prefixes : List String
  nextPageToken : Option String
deriving DecidableEq

/-- `GCSStorageProvider.listFiles`: like S3, but both `hasMore`
(`!!nextQuery?.pageToken`) and the token (`nextQuery?.pageToken || null`)
are derived from the same response field. -/
def gcsFileEntry (f : GcsFile) : ObjEntry :=
  { key := f.name, name := pathBasename f.name, size := some f.size,
    lastModified := some f.updated, type := "file" }

def gcsListFiles (subPath : String) (limit : Nat) (continuationToken : Option String)
    (resp : GcsListResponse) : ListPage ObjEntry :=
  let pfxString := ensureSlash subPath
  let directories := resp.prefixes.map dirEntryOf
  let jsonFiles := (resp.files.filter
      (fun f => jsEndsWith f.name ".json" && f.name != pfxString)).map gcsFileEntry
  { files := directories ++ jsonFiles
    nextContinuationToken := jsOrNull resp.nextPageToken
    hasMore := jsTruthyStr resp.nextPageToken }

/-- One blob of an Azure `listBlobsFlat` page. -/
structure AzureBlob where
  name : String
  contentLength : Nat
  lastModified : Int
deriving DecidableEq

/-- An Azure page segment; `none` models `response.done || !segment`. -/
structure AzureSegment where
  blobItems : List AzureBlob
  continuationToken : Option String
deriving DecidableEq

/-- Entry shape produced by the Azure provider: a flat blob listing with no
`type` field and no directory entries at all. -/
structure AzEntry where
  key : String
  name : String
  size : Nat
  lastModified : Int
deriving DecidableEq

/-- The entry the Azure provider builds from one listed blob. -/
def azEntryOf (b : AzureBlob) : AzEntry :=
  { key := b.name, name := pathBasename b.name, size := b.contentLength,
    lastModified := b.lastModified }

/-- `AzureStorageProvider.listFiles` (flat listing, `.json` blobs only; no
delimiter, hence never any `directory` entry). -/
def azureListFiles (subPath : String) (limit : Nat) (continuationToken : Option String)
    (resp : Option AzureSegment) : ListPage AzEntry :=
  match resp with
  | none => { files := [], nextContinuationToken := none, hasMore := false }
  | some seg =>
    { files := (seg.blobItems.filter (fun b => jsEndsWith b.name ".json")).map
        azEntryOf
      nextContinuationToken := jsOrNull seg.continuationToken
      hasMore := jsTruthyStr seg.continuationToken }

/-- One directory entry of an `fs.readdir(..., { withFileTypes: true })`
scan, with the `fs.stat` data the provider reads for files. -/
structure FsDirEntry where
  name : String
  isFile : Bool
  size : Nat
  mtime : Int
deriving DecidableEq

/-- Entry shape produced by the filesystem provider: files only, no `type`
field. -/
structure FsFile where
  key : String
  name : String
  size : Nat
  lastModified : Int
deriving DecidableEq

/-- One step of the stable descending insertion used to model
`allFiles.sort((a, b) => b.lastModified - a.lastModified)`. -/
def insertByMtimeDesc (x : FsFile) : List FsFile → List FsFile
  | [] => [x]
  | y :: ys => if y.lastModified < x.lastModified then x :: y :: ys else y :: insertByMtimeDesc x ys

/-- Stable sort by `lastModified` descending (JS `Array.prototype.sort` is
stable; ties keep their scan order). -/
def sortByMtimeDesc : List FsFile → List FsFile
  | [] => []
  | x :: xs => insertByMtimeDesc x (sortByMtimeDesc xs)

/-- The directory scan of `FilesystemStorageProvider.listFiles`: regular
files with a `.json` suffix, keyed by `path.join(dirPath, name)`. -/
def fsScan (dirPath : String) (entries : List FsDirEntry) : List FsFile :=
  (entries.filter (fun e => e.isFile && jsEndsWith e.name ".json")).map
    (fun e => { key := pathJoin dirPath e.name, name := e.name, size := e.size,
                lastModified := e.mtime })

/-- `FilesystemStorageProvider.listFiles`: rescans and re-sorts the whole
directory on every call, then pages by a numeric-offset token
(`parseInt(token)`; `String(endIndex)`).  `dir = none` models a
non-existent directory (the `fs.access` guard); a non-numeric token models
`parseInt` returning `NaN`, under which `slice` yields `[]` and
`NaN < length` is false. -/
def fsListFiles (dirPath : String) (dir : Option (List FsDirEntry)) (limit : Nat)
    (continuationToken : Option String) : ListPage FsFile :=
  match dir with
  | none => { files := [], nextContinuationToken := none, hasMore := false }
  | some entries =>
    let sorted := sortByMtimeDesc (fsScan dirPath entries)
    let startIndex? := match continuationToken with
      | none => some 0
      | some t => parseIntNat t
    match startIndex? with
    | none => { files := [], nextContinuationToken := none, hasMore := false }
    | some startIndex =>
      let endIndex := startIndex + limit
      let hasMore := decide (endIndex < sorted.length)
      { files := (sorted.drop startIndex).take limit
        nextContinuationToken := if hasMore then some ⟨natChars endIndex⟩ else none
        hasMore := hasMore }

/-! ## Claim C1: `hasMore == (nextContinuationToken != null)` -/

theorem jsTruthyStr_iff (o : Option String) :
    jsTruthyStr o = true ↔ jsOrNull o ≠ none := by
  cases o with
  | none => simp [jsTruthyStr, jsOrNull]
  | some s =>
    by_cases h : s = "" <;> simp [jsTruthyStr, jsOrNull, h]

/-- C1 counterexample: the S3 provider passes the backend's `IsTruncated`
and `NextContinuationToken` through independently, so a response with
`IsTruncated = true` and no token yields `hasMore = true` with
`nextContinuationToken = null`, breaking the invariant. -/
theorem C1_counterexample :
    (s3ListFiles "pref/active" 100 none
        { Contents := [], CommonPrefixes := [], NextContinuationToken := none,
          IsTruncated := true }).hasMore = true ∧
      (s3ListFiles "pref/active" 100 none
        { Contents := [], CommonPrefixes := [], NextContinuationToken := none,
          IsTruncated := true }).nextContinuationToken = none := by
  constructor <;> rfl

/-- C1 amended: the GCS, Azure and filesystem providers satisfy
`hasMore = (nextContinuationToken ≠ null)` on every call unconditionally;
the S3 provider satisfies it exactly when the backend response itself
couples `IsTruncated` with the presence of a (non-empty)
`NextContinuationToken`, which the provider does not enforce. -/
theorem C1_pagination_invariant :
    (∀ subPath limit tok resp, ((gcsListFiles subPath limit tok resp).hasMore = true ↔
      (gcsListFiles subPath limit tok resp).nextContinuationToken ≠ none)) ∧
    (∀ subPath limit tok resp, ((azureListFiles subPath limit tok resp).hasMore = true ↔
      (azureListFiles subPath limit tok resp).nextContinuationToken ≠ none)) ∧
    (∀ dirPath dir limit tok, ((fsListFiles dirPath dir limit tok).hasMore = true ↔
      (fsListFiles dirPath dir limit tok).nextContinuationToken ≠ none)) ∧
    (∀ subPath limit tok resp, (((s3ListFiles subPath limit tok resp).hasMore = true ↔
        (s3ListFiles subPath limit tok resp).nextContinuationToken ≠ none) ↔
      (resp.IsTruncated = true ↔ jsOrNull resp.NextContinuationToken ≠ none))) := by
  refine ⟨?_, ?_, ?_, ?_⟩
  · intro subPath limit tok resp
    show jsTruthyStr resp.nextPageToken = true ↔ jsOrNull resp.nextPageToken ≠ none
    exact jsTruthyStr_iff _
  · intro subPath limit tok resp
    cases resp with
    | none => simp [azureListFiles]
    | some seg =>
      show jsTruthyStr seg.continuationToken = true ↔ jsOrNull seg.continuationToken ≠ none
      exact jsTruthyStr_iff _
  · intro dirPath dir limit tok
    cases dir with
    | none => simp [fsListFiles]
    | some entries =>
      unfold fsListFiles
      cases htok : (match tok with | none => some 0 | some t => parseIntNat t) with
      | none => simp
      | some startIndex =>
        by_cases h : startIndex + limit < (sortByMtimeDesc (fsScan dirPath entries)).length <;>
          simp [h]
  · intro subPath limit tok resp
    show (resp.IsTruncated = true ↔ jsOrNull resp.NextContinuationToken ≠ none) ↔
      (resp.IsTruncated = true ↔ jsOrNull resp.NextContinuationToken ≠ none)
    exact Iff.rfl

/-! ## Claim C5: listing shape (files/directories) per provider -/

theorem filter_all_true {α : Type} {p : α → Bool} {l : List α}
    (h : ∀ a ∈ l, p a = true) : l.filter p = l :=
  List.filter_eq_self.mpr h

theorem filter_all_false {α : Type} {p : α → Bool} {l : List α}
    (h : ∀ a ∈ l, p a = false) : l.filter p = [] := by
  induction l with
  | nil => rfl
  | cons x xs ih =>
    rw [List.filter_cons, h x (by simp)]
    simp only [Bool.false_eq_true, if_false]
    exact ih (fun a ha => h a (by simp [ha]))

theorem objListing_shape {dirs fls : List ObjEntry}
    (hdir : ∀ e ∈ dirs, e.type = "directory") (hfile : ∀ e ∈ fls, e.type = "file") :
    (∀ e ∈ dirs ++ fls, e.type = "directory" ∨ e.type = "file") ∧
      (dirs ++ fls).filter (fun e => e.type == "directory") = dirs ∧
      (dirs ++ fls).filter (fun e => e.type == "file") = fls := by
  refine ⟨?_, ?_, ?_⟩
  · intro e he
    rcases List.mem_append.mp he with h | h
    · exact Or.inl (hdir e h)
    · exact Or.inr (hfile e h)
  · rw [List.filter_append,
      filter_all_true (fun e he => by rw [hdir e he]; rfl),
      filter_all_false (fun e he => by rw [hfile e he]; rfl), List.append_nil]
  · rw [List.filter_append,
      filter_all_false (fun e he => by rw [hdir e he]; rfl),
      filter_all_true (fun e he => by rw [hfile e he]; rfl), List.nil_append]

theorem map_name_filter (q : String → Bool) (blobs : List AzureBlob) :
    (blobs.filter (fun b => q b.name)).map AzureBlob.name =
      (blobs.map AzureBlob.name).filter q := by
  induction blobs with
  | nil => rfl
  | cons b bs ih =>
    simp only [List.map_cons, List.filter_cons]
    cases hq : q b.name <;> simp [hq, ih]

theorem insertByMtimeDesc_perm (x : FsFile) (l : List FsFile) :
    (insertByMtimeDesc x l).Perm (x :: l) := by
  induction l with
  | nil => exact List.Perm.refl _
  | cons y ys ih =>
    unfold insertByMtimeDesc
    by_cases h : y.lastModified < x.lastModified
    · rw [if_pos h]
    · rw [if_neg h]
      exact (ih.cons y).trans (List.Perm.swap x y ys)

theorem sortByMtimeDesc_perm (l : List FsFile) : (sortByMtimeDesc l).Perm l := by
  induction l with
  | nil => exact List.Perm.refl _
  | cons x xs ih =>
    exact (insertByMtimeDesc_perm x (sortByMtimeDesc xs)).trans (ih.cons x)

/-- Concrete directory contents for the C5 counterexample: a subdirectory
`sub` and a report `a.json`. -/
def c5Entries : List FsDirEntry :=
  [{ name := "sub", isFile := false, size := 0, mtime := 0 },
   { name := "a.json", isFile := true, size := 10, mtime := 5 }]

/-- C5 counterexample: the filesystem provider's listing of a directory
with a one-level-deep subdirectory `sub` returns only the `.json` file —
no entry for the subdirectory at all (its entries carry no `type` field and
directories are skipped by the `isFile()` filter). -/
theorem C5_counterexample :
    ((fsListFiles "/data/active" (some c5Entries) 100 none).files.map FsFile.name
        = ["a.json"]) ∧
      ((fsListFiles "/data/active" (some c5Entries) 100 none).files.all
        (fun e => e.name != "sub")) = true := by
  constructor <;> rfl

/-- C5 amended: the S3 and GCS providers list only `.json`-suffixed keys
distinct from the prefix marker as `file` entries, surface the backend's
one-level prefixes as `directory` entries, and place all directories before
all files; the Azure and filesystem providers return only `.json` files
(Azure: every `.json` blob of the flat listing; filesystem: the `.json`
regular files of the scan) and never produce a directory entry. -/
theorem C5_listing_shape :
    (∀ subPath limit tok (resp : S3ListResponse),
      (∀ e ∈ (s3ListFiles subPath limit tok resp).files,
          e.type = "directory" ∨ e.type = "file") ∧
      (∀ e ∈ (s3ListFiles subPath limit tok resp).files, e.type = "file" →
          jsEndsWith e.key ".json" = true ∧ e.key ≠ ensureSlash subPath) ∧
      ((s3ListFiles subPath limit tok resp).files.filter
          (fun e => e.type == "directory")).map ObjEntry.key = resp.CommonPrefixes ∧
      (s3ListFiles subPath limit tok resp).files =
        (s3ListFiles subPath limit tok resp).files.filter (fun e => e.type == "directory") ++
          (s3ListFiles subPath limit tok resp).files.filter (fun e => e.type == "file")) ∧
    (∀ subPath limit tok (resp : GcsListResponse),
      (∀ e ∈ (gcsListFiles subPath limit tok resp).files,
          e.type = "directory" ∨ e.type = "file") ∧
      (∀ e ∈ (gcsListFiles subPath limit tok resp).files, e.type = "file" →
          jsEndsWith e.key ".json" = true ∧ e.key ≠ ensureSlash subPath) ∧
      ((gcsListFiles subPath limit tok resp).files.filter
          (fun e => e.type == "directory")).map ObjEntry.key = resp.prefixes ∧
      (gcsListFiles subPath limit tok resp).files =
        (gcsListFiles subPath limit tok resp).files.filter (fun e => e.type == "directory") ++
          (gcsListFiles subPath limit tok resp).files.filter (fun e => e.type == "file")) ∧
    (∀ subPath limit tok (seg : AzureSegment),
      (azureListFiles subPath limit tok (some seg)).files.map AzEntry.key =
        (seg.blobItems.map AzureBlob.name).filter (fun n => jsEndsWith n ".json")) ∧
    (∀ dirPath entries limit tok,
      ∀ e ∈ (fsListFiles dirPath (some entries) limit tok).files,
        e.name ∈ (entries.filter
          (fun en => en.isFile && jsEndsWith en.name ".json")).map FsDirEntry.name) := by
  refine ⟨?_, ?_, ?_, ?_⟩
  · intro subPath limit tok resp
    have hfiles : (s3ListFiles subPath limit tok resp).files =
        resp.CommonPrefixes.map dirEntryOf ++
          (resp.Contents.filter (fun obj =>
            jsEndsWith obj.Key ".json" && obj.Key != ensureSlash subPath)).map s3FileEntry := rfl
    have hdir : ∀ e ∈ resp.CommonPrefixes.map dirEntryOf, e.type = "directory" := by
      intro e he
      obtain ⟨d, _, rfl⟩ := List.mem_map.mp he
      rfl
    have hfil : ∀ e ∈ (resp.Contents.filter (fun obj =>
        jsEndsWith obj.Key ".json" && obj.Key != ensureSlash subPath)).map s3FileEntry,
        e.type = "file" := by
      intro e he
      obtain ⟨o, _, rfl⟩ := List.mem_map.mp he
      rfl
    obtain ⟨hmem, hfd, hff⟩ := objListing_shape hdir hfil
    rw [hfiles]
    refine ⟨hmem, ?_, ?_, ?_⟩
    · intro e he hty
      rcases List.mem_append.mp he with h | h
      · rw [hdir e h] at hty; exact absurd hty (by decide)
      · obtain ⟨o, ho, rfl⟩ := List.mem_map.mp h
        obtain ⟨-, hp⟩ := List.mem_filter.mp ho
        simp only [Bool.and_eq_true] at hp
        exact ⟨hp.1, bne_iff_ne.mp hp.2⟩
    · rw [hfd, List.map_map]
      have hid : (ObjEntry.key ∘ dirEntryOf) = id := rfl
      rw [hid, List.map_id]
    · rw [hfd, hff]
  · intro subPath limit tok resp
    have hfiles : (gcsListFiles subPath limit tok resp).files =
        resp.prefixes.map dirEntryOf ++
          (resp.files.filter (fun f =>
            jsEndsWith f.name ".json" && f.name != ensureSlash subPath)).map gcsFileEntry := rfl
    have hdir : ∀ e ∈ resp.prefixes.map dirEntryOf, e.type = "directory" := by
      intro e he
      obtain ⟨d, _, rfl⟩ := List.mem_map.mp he
      rfl
    have hfil : ∀ e ∈ (resp.files.filter (fun f =>
        jsEndsWith f.name ".json" && f.name != ensureSlash subPath)).map gcsFileEntry,
        e.type = "file" := by
      intro e he
      obtain ⟨o, _, rfl⟩ := List.mem_map.mp he
      rfl
    obtain ⟨hmem, hfd, hff⟩ := objListing_shape hdir hfil
    rw [hfiles]
    refine ⟨hmem, ?_, ?_, ?_⟩
    · intro e he hty
      rcases List.mem_append.mp he with h | h
      · rw [hdir e h] at hty; exact absurd hty (by decide)
      · obtain ⟨o, ho, rfl⟩ := List.mem_map.mp h
        obtain ⟨-, hp⟩ := List.mem_filter.mp ho
        simp only [Bool.and_eq_true] at hp
        exact ⟨hp.1, bne_iff_ne.mp hp.2⟩
    · rw [hfd, List.map_map]
      have hid : (ObjEntry.key ∘ dirEntryOf) = id := rfl
      rw [hid, List.map_id]
    · rw [hfd, hff]
  · intro subPath limit tok seg
    have hfiles : (azureListFiles subPath limit tok (some seg)).files =
        (seg.blobItems.filter (fun b => jsEndsWith b.name ".json")).map azEntryOf := rfl
    rw [hfiles, List.map_map]
    have hid : (AzEntry.key ∘ azEntryOf) = AzureBlob.name := rfl
    rw [hid]
    exact map_name_filter (fun n => jsEndsWith n ".json") seg.blobItems
  · intro dirPath entries limit tok e he
    have hsub : e ∈ sortByMtimeDesc (fsScan dirPath entries) := by
      unfold fsListFiles at he
      rcases htok : (match tok with | none => some 0 | some t => parseIntNat t) with _ | startIndex
      · rw [htok] at he
        simp at he
      · rw [htok] at he
        simp only [] at he
        exact List.drop_subset _ _ (List.take_subset _ _ he)
    have hscan : e ∈ fsScan dirPath entries :=
      (sortByMtimeDesc_perm _).mem_iff.mp hsub
    obtain ⟨en, hen, rfl⟩ := List.mem_map.mp hscan
    exact List.mem_map.mpr ⟨en, hen, rfl⟩

/-! ## Claim C2: exactly-once enumeration by the filesystem pagination -/

/-- A client's pagination loop against the filesystem provider over a fixed
directory state: one `listFiles` call per element of `limits`, chaining the
returned `nextContinuationToken`, stopping when it is absent (which, by
`C1`, is exactly `hasMore = false`).  The boolean records whether the loop
terminated that way before the limits ran out. -/
def fsChain (dirPath : String) (dir : Option (List FsDirEntry)) :
    List Nat → Option String → List FsFile × Bool
  | [], _ => ([], false)
  | limit :: rest, tok =>
    let page := fsListFiles dirPath dir limit tok
    match page.nextContinuationToken with
    | some t =>
      let r := fsChain dirPath dir rest (some t)
      (page.files ++ r.1, r.2)
    | none => (page.files, true)

theorem fsChain_from (dirPath : String) (entries : List FsDirEntry) :
    ∀ (rest : List Nat) (limit start : Nat) (tok : Option String),
      (match tok with | none => some 0 | some t => parseIntNat t) = some start →
      (sortByMtimeDesc (fsScan dirPath entries)).length ≤ start + limit + rest.sum →
      fsChain dirPath (some entries) (limit :: rest) tok =
        ((sortByMtimeDesc (fsScan dirPath entries)).drop start, true) := by
  intro rest
  induction rest with
  | nil =>
    intro limit start tok htok hcover
    simp only [List.sum_nil, Nat.add_zero] at hcover
    unfold fsChain fsListFiles
    rw [htok]
    have hd : decide
        (start + limit < (sortByMtimeDesc (fsScan dirPath entries)).length) = false :=
      decide_eq_false (by omega)
    simp only [hd, Bool.false_eq_true, if_false]
    rw [List.take_of_length_le (by rw [List.length_drop]; omega)]
  | cons l' rest' ih =>
    intro limit start tok htok hcover
    by_cases hmore : start + limit < (sortByMtimeDesc (fsScan dirPath entries)).length
    · unfold fsChain fsListFiles
      rw [htok]
      have hd : decide
          (start + limit < (sortByMtimeDesc (fsScan dirPath entries)).length) = true :=
        decide_eq_true hmore
      simp only [hd, if_true]
      rw [ih l' (start + limit) (some ⟨natChars (start + limit)⟩) (parseIntNat_natChars _)
        (by simp only [List.sum_cons] at hcover; omega)]
      simp only []
      rw [← List.drop_drop]
      rw [List.take_append_drop]
    · unfold fsChain fsListFiles
      rw [htok]
      have hd : decide
          (start + limit < (sortByMtimeDesc (fsScan dirPath entries)).length) = false :=
        decide_eq_false hmore
      simp only [hd, Bool.false_eq_true, if_false]
      rw [List.take_of_length_le (by rw [List.length_drop]; omega)]

/-- C2: over an unchanged directory, chaining `listFiles` calls through the
returned numeric-offset tokens (the full listing being re-sorted by
`lastModified` descending on every call) returns every `.json` file of the
scan exactly once — the concatenated pages are exactly the sorted listing,
a permutation of the scan — and the loop terminates with `hasMore = false`,
provided the limits supply enough calls to cover the listing. -/
theorem C2_fs_pagination (dirPath : String) (entries : List FsDirEntry) (limits : List Nat)
    (hne : limits ≠ [])
    (hcover : (fsScan dirPath entries).length ≤ limits.sum) :
    fsChain dirPath (some entries) limits none =
      (sortByMtimeDesc (fsScan dirPath entries), true) ∧
    (fsChain dirPath (some entries) limits none).1.Perm (fsScan dirPath entries) := by
  obtain ⟨limit, rest, rfl⟩ : ∃ l r, limits = l :: r := by
    cases limits with
    | nil => exact absurd rfl hne
    | cons l r => exact ⟨l, r, rfl⟩
  have hlen : (sortByMtimeDesc (fsScan dirPath entries)).length =
      (fsScan dirPath entries).length := (sortByMtimeDesc_perm _).length_eq
  have h := fsChain_from dirPath entries rest limit 0 none rfl
    (by rw [hlen]; simp only [List.sum_cons] at hcover ⊢; omega)
  rw [List.drop_zero] at h
  exact ⟨h, by rw [h]; exact sortByMtimeDesc_perm _⟩

/-- Concrete directory contents for the C2 witness. -/
def c2Entries : List FsDirEntry :=
  [{ name := "a.json", isFile := true, size := 3, mtime := 10 },
   { name := "b.json", isFile := true, size := 4, mtime := 30 },
   { name := "notes.txt", isFile := true, size := 1, mtime := 99 },
   { name := "c.json", isFile := true, size := 5, mtime := 20 }]

/-- C2 witness: three `.json` files paged with limits `[2, 2]` are
enumerated exactly once, in `lastModified`-descending order, and the chain
reports termination. -/
theorem C2_fs_pagination_witness :
    fsChain "/data/active" (some c2Entries) [2, 2] none =
      (sortByMtimeDesc (fsScan "/data/active" c2Entries), true) ∧
    (fsChain "/data/active" (some c2Entries) [2, 2] none).1.Perm
      (fsScan "/data/active" c2Entries) :=
  C2_fs_pagination "/data/active" c2Entries [2, 2] (by decide) (by decide)

/-! ## JSON documents and their serialization

`JSON.stringify(content, null, 2)` (what every provider's `saveFile`
writes), `JSON.stringify(content)` (what the upload size check measures)
and `JSON.parse` (what every `getFile` applies) are modelled concretely
over a JSON value type.  Numbers are integers (floating-point values are
out of scope of the embedding); strings are faithful for documents whose
strings contain no control character (`JSON.stringify` escapes only `"`
and `\` on those). -/

inductive Json where
  | null : Json
  | bool : Bool → Json
  | num : Int → Json
  | str : List Char → Json
  | arr : List Json → Json
  | obj : List (List Char × Json) → Json

/-- Decimal printing of a JS integer (`Int.negSucc n` is `-(n+1)`). -/
def intChars : Int → List Char
  | .ofNat n => natChars n
  | .negSucc n => '-' :: natChars (n + 1)

/-- String-body escaping of `JSON.stringify`: `"` and `\` get a backslash
(control characters, which it would escape as `\uXXXX` or `\n` etc., are
excluded by `jsonWf` below). -/
def escapeChars : List Char → List Char
  | [] => []
  | c :: cs => if c == '"' || c == '\\' then '\\' :: c :: escapeChars cs else c :: escapeChars cs

/-- A character `JSON.stringify` never escapes specially (no control
characters). -/
def plainChar (c : Char) : Bool := decide (32 ≤ c.toNat)

mutual
/-- Documents on which the serializer model is faithful: every string
(value or object key) is free of control characters. -/
def jsonWf : Json → Bool
  | .null => true
  | .bool _ => true
  | .num _ => true
  | .str s => s.all plainChar
  | .arr xs => jsonWfList xs
  | .obj fs => jsonWfFields fs

def jsonWfList : List Json → Bool
  | [] => true
  | x :: xs => jsonWf x && jsonWfList xs

def jsonWfFields : List (List Char × Json) → Bool
  | [] => true
  | f :: fs => f.1.all plainChar && jsonWf f.2 && jsonWfFields fs
end

/-- The literal `null`. -/
def nullChars : List Char := "null".data

/-- The literal `true`. -/
def trueChars : List Char := "true".data

/-- The literal `false`. -/
def falseChars : List Char := "false".data

mutual
/-- Chars of `JSON.stringify(v)` (compact: no whitespace). -/
def emitC : Json → List Char
  | .null => nullChars
  | .bool true => trueChars
  | .bool false => falseChars
  | .num i => intChars i
  | .str s => '"' :: (escapeChars s ++ ['"'])
  | .arr [] => ['[', ']']
  | .arr (x :: xs) => '[' :: (emitC x ++ (emitCItems xs ++ [']']))
  | .obj [] => ['{', '}']
  | .obj (f :: fs) => '{' :: (emitCField f ++ (emitCFields fs ++ ['}']))

def emitCItems : List Json → List Char
  | [] => []
  | x :: xs => ',' :: (emitC x ++ emitCItems xs)

def emitCField : List Char × Json → List Char
  | (k, v) => '"' :: (escapeChars k ++ ('"' :: ':' :: emitC v))

def emitCFields : List (List Char × Json) → List Char
  | [] => []
  | f :: fs => ',' :: (emitCField f ++ emitCFields fs)
end

/-- The two-space indentation prefix at nesting depth `d`. -/
def indentChars (d : Nat) : List Char := List.replicate (2 * d) ' '

mutual
/-- Chars of `JSON.stringify(v, null, 2)` at nesting depth `d`: items of
non-empty arrays/objects go one per line, indented two spaces deeper,
`": "` after keys, closing bracket on its own line at the parent depth. -/
def emitP : Json → Nat → List Char
  | .null, _ => nullChars
  | .bool true, _ => trueChars
  | .bool false, _ => falseChars
  | .num i, _ => intChars i
  | .str s, _ => '"' :: (escapeChars s ++ ['"'])
  | .arr [], _ => ['[', ']']
  | .arr (x :: xs), d =>
    '[' :: '\n' :: (indentChars (d + 1) ++ (emitP x (d + 1) ++ (emitPItems xs (d + 1) ++
      ('\n' :: (indentChars d ++ [']'])))))
  | .obj [], _ => ['{', '}']
  | .obj (f :: fs), d =>
    '{' :: '\n' :: (indentChars (d + 1) ++ (emitPField f (d + 1) ++ (emitPFields fs (d + 1) ++
      ('\n' :: (indentChars d ++ ['}'])))))

def emitPItems : List Json → Nat → List Char
  | [], _ => []
  | x :: xs, d => ',' :: '\n' :: (indentChars d ++ (emitP x d ++ emitPItems xs d))

def emitPField : List Char × Json → Nat → List Char
  | (k, v), d => '"' :: (escapeChars k ++ ('"' :: ':' :: ' ' :: emitP v d))

def emitPFields : List (List Char × Json) → Nat → List Char
  | [], _ => []
  | f :: fs, d => ',' :: '\n' :: (indentChars d ++ (emitPField f d ++ emitPFields fs d))
end

/-- `JSON.stringify(v)`. -/
def stringifyCompact (v : Json) : String := ⟨emitC v⟩

/-- `JSON.stringify(v, null, 2)`. -/
def stringifyIndent2 (v : Json) : String := ⟨emitP v 0⟩

/-- `Buffer.byteLength(s, 'utf8')`: the UTF-8 byte count. -/
def byteLen (s : String) : Nat := (s.data.map Char.utf8Size).sum

/-! ### A recursive-descent model of `JSON.parse`

Total via an explicit fuel (one unit per nested value); `parseJson` below
supplies `length + 1`, which `parseVal_emitP` shows is always enough on
serializer output. -/

/-- JSON whitespace. -/
def isWsChar (c : Char) : Bool := c == ' ' || c == '\n' || c == '\t' || c == '\r'

def skipWs (cs : List Char) : List Char := cs.dropWhile isWsChar

/-- Body of a quoted string up to its closing quote, undoing the `\"` and
`\\` escapes `escapeChars` produces. -/
def parseStrBody : List Char → Option (List Char × List Char)
  | [] => none
  | c :: rest =>
    if c == '"' then some ([], rest)
    else if c == '\\' then
      match rest with
      | [] => none
      | e :: rest2 =>
        if e == '"' || e == '\\' then
          (parseStrBody rest2).map (fun p => (e :: p.1, p.2))
        else none
    else (parseStrBody rest).map (fun p => (c :: p.1, p.2))
termination_by cs => cs.length
decreasing_by
  all_goals simp only [List.length_cons]
  all_goals omega

mutual
/-- One JSON value and the remaining input. -/
def parseVal : Nat → List Char → Option (Json × List Char)
  | 0, _ => none
  | fuel + 1, cs =>
    match skipWs cs with
    | [] => none
    | c :: r =>
      if c.isDigit then
        match parseNat (c :: r) with
        | some (n, rr) => some (.num (n : Int), rr)
        | none => none
      else if c == '-' then
        match parseNat r with
        | some (n, rr) => some (.num (-(n : Int)), rr)
        | none => none
      else if c == 'n' then
        match r with
        | 'u' :: 'l' :: 'l' :: r2 => some (.null, r2)
        | _ => none
      else if c == 't' then
        match r with
        | 'r' :: 'u' :: 'e' :: r2 => some (.bool true, r2)
        | _ => none
      else if c == 'f' then
        match r with
        | 'a' :: 'l' :: 's' :: 'e' :: r2 => some (.bool false, r2)
        | _ => none
      else if c == '"' then
        match parseStrBody r with
        | some (s, rr) => some (.str s, rr)
        | none => none
      else if c == '[' then
        match skipWs r with
        | [] => none
        | c1 :: r1 =>
          if c1 == ']' then some (.arr [], r1)
          else
            match parseItems fuel r with
            | some (xs, r2) =>
              match skipWs r2 with
              | [] => none
              | c3 :: r3 => if c3 == ']' then some (.arr xs, r3) else none
            | none => none
      else if c == '{' then
        match skipWs r with
        | [] => none
        | c1 :: r1 =>
          if c1 == '}' then some (.obj [], r1)
          else
            match parseFields fuel r with
            | some (fs, r2) =>
              match skipWs r2 with
              | [] => none
              | c3 :: r3 => if c3 == '}' then some (.obj fs, r3) else none
            | none => none
      else none

/-- A non-empty comma-separated item sequence. -/
def parseItems : Nat → List Char → Option (List Json × List Char)
  | 0, _ => none
  | fuel + 1, cs =>
    match parseVal fuel cs with
    | none => none
    | some (v, r) =>
      match skipWs r with
      | [] => some ([v], r)
      | c :: r2 =>
        if c == ',' then
          match parseItems fuel r2 with
          | some (vs, r3) => some (v :: vs, r3)
          | none => none
        else some ([v], r)

/-- A non-empty comma-separated `"key": value` sequence. -/
def parseFields : Nat → List Char → Option (List (List Char × Json) × List Char)
  | 0, _ => none
  | fuel + 1, cs =>
    match skipWs cs with
    | [] => none
    | c :: r =>
      if c == '"' then
        match parseStrBody r with
        | none => none
        | some (k, r1) =>
          match skipWs r1 with
          | [] => none
          | c2 :: r2 =>
            if c2 == ':' then
              match parseVal fuel r2 with
              | none => none
              | some (v, r3) =>
                match skipWs r3 with
                | [] => some ([(k, v)], r3)
                | c3 :: r4 =>
                  if c3 == ',' then
                    match parseFields fuel r4 with
                    | some (fs, r5) => some ((k, v) :: fs, r5)
                    | none => none
                  else some ([(k, v)], r3)
            else none
      else none
end

/-- `JSON.parse`: one value, then nothing but whitespace.  Fuel
`length + 1` is enough for anything the parser can consume: every
nesting level strictly consumes input. -/
def parseJson (s : String) : Option Json :=
  match parseVal (s.data.length + 1) s.data with
  | some (v, rest) => if (skipWs rest).isEmpty then some v else none
  | none => none

mutual
/-- Fuel needed by `parseVal` on the serialized form of `v`. -/
def mJ : Json → Nat
  | .null => 1
  | .bool _ => 1
  | .num _ => 1
  | .str _ => 1
  | .arr [] => 1
  | .arr (x :: xs) => 1 + mItems x xs
  | .obj [] => 1
  | .obj ((k, v) :: fs) => 1 + mFields (k, v) fs
termination_by v => sizeOf v

/-- Fuel needed by `parseItems` on serialized items `x :: xs`. -/
def mItems : Json → List Json → Nat
  | x, [] => 1 + mJ x
  | x, y :: ys => 1 + mJ x + mItems y ys
termination_by x xs => sizeOf x + sizeOf xs

/-- Fuel needed by `parseFields` on serialized fields `f :: fs`. -/
def mFields : List Char × Json → List (List Char × Json) → Nat
  | (_, v), [] => 1 + mJ v
  | (_, v), (k2, v2) :: gs => 1 + mJ v + mFields (k2, v2) gs
termination_by f fs => sizeOf f.2 + sizeOf fs
end

/-! ### Round-trip: the parser inverts the pretty serializer -/

theorem skipWs_append_ws {ws : List Char} (h : ∀ c ∈ ws, isWsChar c = true)
    (cs : List Char) : skipWs (ws ++ cs) = skipWs cs :=
  dropWhile_append_all h cs

theorem skipWs_cons_not {c : Char} (h : isWsChar c = false) (cs : List Char) :
    skipWs (c :: cs) = c :: cs := by
  simp [skipWs, List.dropWhile_cons, h]

theorem skipWs_cons_ws {c : Char} (h : isWsChar c = true) (cs : List Char) :
    skipWs (c :: cs) = skipWs cs := by
  simp [skipWs, List.dropWhile_cons, h]

theorem indentChars_ws (d : Nat) : ∀ c ∈ indentChars d, isWsChar c = true := by
  intro c hc
  rw [List.eq_of_mem_replicate hc]
  decide

theorem parseStrBody_escape (s : List Char) (rest : List Char) :
    parseStrBody (escapeChars s ++ '"' :: rest) = some (s, rest) := by
  induction s with
  | nil =>
    show parseStrBody ('"' :: rest) = some ([], rest)
    unfold parseStrBody
    rw [if_pos (by decide)]
  | cons c cs ih =>
    unfold escapeChars
    by_cases hc : (c == '"' || c == '\\') = true
    · rw [if_pos hc]
      show parseStrBody ('\\' :: c :: (escapeChars cs ++ '"' :: rest)) = some (c :: cs, rest)
      unfold parseStrBody
      rw [if_neg (by decide), if_pos (by decide)]
      simp only [hc, if_true, ih]
      rfl
    · rw [if_neg hc]
      show parseStrBody (c :: (escapeChars cs ++ '"' :: rest)) = some (c :: cs, rest)
      rw [Bool.or_eq_true] at hc
      push_neg at hc
      obtain ⟨h1, h2⟩ := hc
      unfold parseStrBody
      rw [if_neg (by simp [h1]), if_neg (by simp [h2]), ih]
      rfl

theorem beq_false_of_isDigit {c x : Char} (h : c.isDigit = true)
    (hx : x.isDigit = false) : (c == x) = false := by
  cases hbe : c == x with
  | false => rfl
  | true =>
    have he := beq_iff_eq.mp hbe
    subst he
    rw [h] at hx
    cases hx

theorem isWs_false_of_digit {c : Char} (h : c.isDigit = true) : isWsChar c = false := by
  unfold isWsChar
  rw [beq_false_of_isDigit h (by decide), beq_false_of_isDigit h (by decide),
    beq_false_of_isDigit h (by decide), beq_false_of_isDigit h (by decide)]
  rfl

theorem natChars_head (n : Nat) :
    ∃ c t, natChars n = c :: t ∧ c.isDigit = true := by
  cases h : natChars n with
  | nil => exact absurd h (natChars_ne_nil n)
  | cons c t =>
    exact ⟨c, t, rfl, natChars_digits n c (by rw [h]; exact List.mem_cons_self _ _)⟩

theorem emitP_head (v : Json) (d : Nat) :
    ∃ c t, emitP v d = c :: t ∧ isWsChar c = false ∧ (c == ']') = false ∧
      (c == '}') = false ∧ (c == ',') = false := by
  cases v with
  | null => exact ⟨'n', _, rfl, by decide, by decide, by decide, by decide⟩
  | bool b =>
    cases b with
    | true => exact ⟨'t', _, rfl, by decide, by decide, by decide, by decide⟩
    | false => exact ⟨'f', _, rfl, by decide, by decide, by decide, by decide⟩
  | num i =>
    cases i with
    | ofNat n =>
      obtain ⟨c, t, hct, hcd⟩ := natChars_head n
      refine ⟨c, t, ?_, isWs_false_of_digit hcd, beq_false_of_isDigit hcd (by decide),
        beq_false_of_isDigit hcd (by decide), beq_false_of_isDigit hcd (by decide)⟩
      show natChars n = c :: t
      exact hct
    | negSucc n =>
      exact ⟨'-', _, rfl, by decide, by decide, by decide, by decide⟩
  | str s => exact ⟨'"', _, rfl, by decide, by decide, by decide, by decide⟩
  | arr xs =>
    cases xs with
    | nil => exact ⟨'[', _, rfl, by decide, by decide, by decide, by decide⟩
    | cons x xs => exact ⟨'[', _, rfl, by decide, by decide, by decide, by decide⟩
  | obj fs =>
    cases fs with
    | nil => exact ⟨'{', _, rfl, by decide, by decide, by decide, by decide⟩
    | cons f fs => exact ⟨'{', _, rfl, by decide, by decide, by decide, by decide⟩

theorem numSafe_emitPItems (xs : List Json) (d : Nat) {tail : List Char}
    (h : numSafe tail) : numSafe (emitPItems xs d ++ tail) := by
  cases xs with
  | nil => exact h
  | cons y ys =>
    show (',' : Char).isDigit = false
    decide

theorem numSafe_emitPFields (fs : List (List Char × Json)) (d : Nat) {tail : List Char}
    (h : numSafe tail) : numSafe (emitPFields fs d ++ tail) := by
  cases fs with
  | nil => exact h
  | cons g gs =>
    show (',' : Char).isDigit = false
    decide

theorem parseVal_ws {ws : List Char} (h : ∀ c ∈ ws, isWsChar c = true) (fuel : Nat)
    (cs : List Char) : parseVal (fuel + 1) (ws ++ cs) = parseVal (fuel + 1) cs := by
  unfold parseVal
  rw [skipWs_append_ws h]

theorem mJ_pos (v : Json) : 1 ≤ mJ v := by
  cases v with
  | null => simp [mJ]
  | bool b => simp [mJ]
  | num i => simp [mJ]
  | str s => simp [mJ]
  | arr xs => cases xs <;> simp [mJ]
  | obj fs =>
    cases fs with
    | nil => simp [mJ]
    | cons f fs =>
      obtain ⟨k, v⟩ := f
      simp [mJ]

theorem mItems_lower (x : Json) (xs : List Json) : 1 + mJ x ≤ mItems x xs := by
  cases xs with
  | nil => simp [mItems]
  | cons y ys => simp [mItems]

theorem mFields_lower (f : List Char × Json) (fs : List (List Char × Json)) :
    1 + mJ f.2 ≤ mFields f fs := by
  obtain ⟨k, v⟩ := f
  cases fs with
  | nil => simp [mFields]
  | cons g gs =>
    obtain ⟨k2, v2⟩ := g
    simp [mFields]

theorem parseVal_cons_ws {c : Char} (h : isWsChar c = true) (fuel : Nat)
    (cs : List Char) : parseVal (fuel + 1) (c :: cs) = parseVal (fuel + 1) cs := by
  unfold parseVal
  rw [skipWs_cons_ws h]

theorem parseVal_arr (g : Nat) (r : List Char) {c0 : Char} {rr : List Char}
    (hsk : skipWs r = c0 :: rr) (hne : (c0 == ']') = false) :
    parseVal (g + 1) ('[' :: r) =
      match parseItems g r with
      | some (xs, r2) =>
        match skipWs r2 with
        | [] => none
        | c3 :: r3 => if c3 == ']' then some (.arr xs, r3) else none
      | none => none := by
  unfold parseVal
  rw [skipWs_cons_not (by decide)]
  show (match skipWs r with
    | [] => none
    | c1 :: r1 =>
      if c1 == ']' then some (Json.arr [], r1)
      else
        match parseItems g r with
        | some (xs, r2) =>
          match skipWs r2 with
          | [] => none
          | c3 :: r3 => if c3 == ']' then some (.arr xs, r3) else none
        | none => none) = _
  rw [hsk]
  simp only [hne, Bool.false_eq_true, if_false]

theorem parseVal_obj (g : Nat) (r : List Char) {c0 : Char} {rr : List Char}
    (hsk : skipWs r = c0 :: rr) (hne : (c0 == '}') = false) :
    parseVal (g + 1) ('{' :: r) =
      match parseFields g r with
      | some (fs, r2) =>
        match skipWs r2 with
        | [] => none
        | c3 :: r3 => if c3 == '}' then some (.obj fs, r3) else none
      | none => none := by
  unfold parseVal
  rw [skipWs_cons_not (by decide)]
  show (match skipWs r with
    | [] => none
    | c1 :: r1 =>
      if c1 == '}' then some (Json.obj [], r1)
      else
        match parseFields g r with
        | some (fs, r2) =>
          match skipWs r2 with
          | [] => none
          | c3 :: r3 => if c3 == '}' then some (.obj fs, r3) else none
        | none => none) = _
  rw [hsk]
  simp only [hne, Bool.false_eq_true, if_false]

theorem parse_emit_roundTrip : ∀ fuel : Nat,
    (∀ (v : Json) (d : Nat) (rest : List Char), mJ v ≤ fuel → numSafe rest →
      parseVal fuel (emitP v d ++ rest) = some (v, rest)) ∧
    (∀ (x : Json) (xs : List Json) (d : Nat) (ws tail : List Char), mItems x xs ≤ fuel →
      (∀ c ∈ ws, isWsChar c = true) → numSafe tail →
      (∀ c r', skipWs tail = c :: r' → (c == ',') = false) →
      parseItems fuel (ws ++ (emitP x d ++ (emitPItems xs d ++ tail))) =
        some (x :: xs, tail)) ∧
    (∀ (f : List Char × Json) (fs : List (List Char × Json)) (d : Nat)
        (ws tail : List Char), mFields f fs ≤ fuel →
      (∀ c ∈ ws, isWsChar c = true) → numSafe tail →
      (∀ c r', skipWs tail = c :: r' → (c == ',') = false) →
      parseFields fuel (ws ++ (emitPField f d ++ (emitPFields fs d ++ tail))) =
        some (f :: fs, tail)) := by
  intro fuel
  induction fuel using Nat.strong_induction_on with
  | _ fuel ih =>
  refine ⟨?_, ?_, ?_⟩
  · -- values
    intro v d rest hm hrest
    cases fuel with
    | zero => exact absurd hm (by have := mJ_pos v; omega)
    | succ g =>
    cases v with
    | null => rfl
    | bool b => cases b <;> rfl
    | num i =>
      cases i with
      | ofNat n =>
        show parseVal (g + 1) (natChars n ++ rest) = some (.num (Int.ofNat n), rest)
        obtain ⟨c, t, hct, hcd⟩ := natChars_head n
        have hw : isWsChar c = false := isWs_false_of_digit hcd
        have hp : parseNat (c :: (t ++ rest)) = some (n, rest) := by
          rw [← List.cons_append, ← hct]
          exact parseNat_natChars n hrest
        rw [hct, List.cons_append]
        have hred : parseVal (g + 1) (c :: (t ++ rest)) =
            match parseNat (c :: (t ++ rest)) with
            | some (nn, rr) => some (Json.num (nn : Int), rr)
            | none => none := by
          unfold parseVal
          rw [skipWs_cons_not hw]
          exact if_pos hcd
        rw [hred, hp]
        rfl
      | negSucc n =>
        show parseVal (g + 1) ('-' :: (natChars (n + 1) ++ rest)) =
          some (.num (Int.negSucc n), rest)
        have hred : parseVal (g + 1) ('-' :: (natChars (n + 1) ++ rest)) =
            match parseNat (natChars (n + 1) ++ rest) with
            | some (nn, rr) => some (Json.num (-(nn : Int)), rr)
            | none => none := by
          unfold parseVal
          rw [skipWs_cons_not (by decide)]
          rfl
        rw [hred, parseNat_natChars (n + 1) hrest]
        have heq : (-((n + 1 : Nat) : Int)) = Int.negSucc n := by
          rw [Int.negSucc_eq]
          push_cast
          ring
        exact congrArg (fun z => (some (Json.num z, rest) : Option (Json × List Char))) heq
    | str s =>
      have hgoal : emitP (Json.str s) d ++ rest = '"' :: (escapeChars s ++ ('"' :: rest)) := by
        show ('"' :: (escapeChars s ++ ['"'])) ++ rest = _
        simp [List.append_assoc]
      rw [hgoal]
      have hred : parseVal (g + 1) ('"' :: (escapeChars s ++ ('"' :: rest))) =
          match parseStrBody (escapeChars s ++ ('"' :: rest)) with
          | some (ss, rr) => some (Json.str ss, rr)
          | none => none := by
        unfold parseVal
        rw [skipWs_cons_not (by decide)]
        rfl
      rw [hred, parseStrBody_escape]
    | arr xs =>
      cases xs with
      | nil => rfl
      | cons x xs =>
        simp only [mJ] at hm
        have hshape : emitP (Json.arr (x :: xs)) d ++ rest =
            '[' :: ('\n' :: (indentChars (d + 1) ++ (emitP x (d + 1) ++
              (emitPItems xs (d + 1) ++
                ('\n' :: (indentChars d ++ (']' :: rest))))))) := by
          show ('[' :: '\n' :: (indentChars (d + 1) ++ (emitP x (d + 1) ++
            (emitPItems xs (d + 1) ++ ('\n' :: (indentChars d ++ [']'])))))) ++ rest = _
          simp [List.append_assoc]
        rw [hshape]
        obtain ⟨c0, t0, hc0, hw0, hb1, hb2, hb3⟩ := emitP_head x (d + 1)
        have hsk : skipWs ('\n' :: (indentChars (d + 1) ++ (emitP x (d + 1) ++
            (emitPItems xs (d + 1) ++ ('\n' :: (indentChars d ++ (']' :: rest))))))) =
            c0 :: (t0 ++ (emitPItems xs (d + 1) ++
              ('\n' :: (indentChars d ++ (']' :: rest))))) := by
          rw [skipWs_cons_ws (by decide), skipWs_append_ws (indentChars_ws _), hc0,
            List.cons_append, skipWs_cons_not hw0]
        rw [parseVal_arr g _ hsk hb1]
        have hLI := (ih g (by omega)).2.1 x xs (d + 1)
          ('\n' :: indentChars (d + 1)) ('\n' :: (indentChars d ++ (']' :: rest)))
          (by omega)
          (by
            intro c hc
            rcases List.mem_cons.mp hc with h | h
            · subst h; decide
            · exact indentChars_ws _ c h)
          (by show ('\n' : Char).isDigit = false; decide)
          (by
            intro c r' hcr
            rw [skipWs_cons_ws (by decide), skipWs_append_ws (indentChars_ws _),
              skipWs_cons_not (by decide)] at hcr
            obtain ⟨rfl, -⟩ := List.cons.inj hcr
            decide)
        rw [List.cons_append] at hLI
        rw [hLI]
        have hskTail : skipWs ('\n' :: (indentChars d ++ (']' :: rest))) = ']' :: rest := by
          rw [skipWs_cons_ws (by decide), skipWs_append_ws (indentChars_ws _),
            skipWs_cons_not (by decide)]
        show (match skipWs ('\n' :: (indentChars d ++ (']' :: rest))) with
          | [] => none
          | c3 :: r3 => if c3 == ']' then some (Json.arr (x :: xs), r3) else none) =
            some (Json.arr (x :: xs), rest)
        rw [hskTail]
        rfl
    | obj fs =>
      cases fs with
      | nil => rfl
      | cons f fs =>
        obtain ⟨k, v⟩ := f
        simp only [mJ] at hm
        have hshape : emitP (Json.obj ((k, v) :: fs)) d ++ rest =
            '{' :: ('\n' :: (indentChars (d + 1) ++ (emitPField (k, v) (d + 1) ++
              (emitPFields fs (d + 1) ++
                ('\n' :: (indentChars d ++ ('}' :: rest))))))) := by
          show ('{' :: '\n' :: (indentChars (d + 1) ++ (emitPField (k, v) (d + 1) ++
            (emitPFields fs (d + 1) ++ ('\n' :: (indentChars d ++ ['}'])))))) ++ rest = _
          simp [List.append_assoc]
        rw [hshape]
        have hsk : skipWs ('\n' :: (indentChars (d + 1) ++ (emitPField (k, v) (d + 1) ++
            (emitPFields fs (d + 1) ++ ('\n' :: (indentChars d ++ ('}' :: rest))))))) =
            '"' :: ((escapeChars k ++ ('"' :: ':' :: ' ' :: emitP v (d + 1))) ++
              (emitPFields fs (d + 1) ++
                ('\n' :: (indentChars d ++ ('}' :: rest))))) := by
          rw [skipWs_cons_ws (by decide), skipWs_append_ws (indentChars_ws _)]
          show skipWs ('"' :: ((escapeChars k ++ ('"' :: ':' :: ' ' :: emitP v (d + 1))) ++
            (emitPFields fs (d + 1) ++
              ('\n' :: (indentChars d ++ ('}' :: rest)))))) = _
          rw [skipWs_cons_not (by decide)]
        rw [parseVal_obj g _ hsk (by decide)]
        have hLF := (ih g (by omega)).2.2 (k, v) fs (d + 1)
          ('\n' :: indentChars (d + 1)) ('\n' :: (indentChars d ++ ('}' :: rest)))
          (by omega)
          (by
            intro c hc
            rcases List.mem_cons.mp hc with h | h
            · subst h; decide
            · exact indentChars_ws _ c h)
          (by show ('\n' : Char).isDigit = false; decide)
          (by
            intro c r' hcr
            rw [skipWs_cons_ws (by decide), skipWs_append_ws (indentChars_ws _),
              skipWs_cons_not (by decide)] at hcr
            obtain ⟨rfl, -⟩ := List.cons.inj hcr
            decide)
        rw [List.cons_append] at hLF
        rw [hLF]
        have hskTail : skipWs ('\n' :: (indentChars d ++ ('}' :: rest))) = '}' :: rest := by
          rw [skipWs_cons_ws (by decide), skipWs_append_ws (indentChars_ws _),
            skipWs_cons_not (by decide)]
        show (match skipWs ('\n' :: (indentChars d ++ ('}' :: rest))) with
          | [] => none
          | c3 :: r3 => if c3 == '}' then some (Json.obj ((k, v) :: fs), r3) else none) =
            some (Json.obj ((k, v) :: fs), rest)
        rw [hskTail]
        rfl
  · -- items
    intro x xs d ws tail hm hws htail hcomma
    cases fuel with
    | zero =>
      exact absurd hm (by have h1 := mItems_lower x xs; have h2 := mJ_pos x; omega)
    | succ g =>
    obtain ⟨g', rfl⟩ : ∃ g', g = g' + 1 := by
      have h1 := mItems_lower x xs
      have h2 := mJ_pos x
      cases g with
      | zero => omega
      | succ gg => exact ⟨gg, rfl⟩
    have hmx : mJ x ≤ g' + 1 := by
      have h1 := mItems_lower x xs
      omega
    unfold parseItems
    rw [parseVal_ws hws g' _,
      (ih (g' + 1) (by omega)).1 x d (emitPItems xs d ++ tail) hmx
        (numSafe_emitPItems xs d htail)]
    cases xs with
    | nil =>
      show (match skipWs tail with
        | [] => some ([x], tail)
        | c :: r2 =>
          if c == ',' then
            match parseItems (g' + 1) r2 with
            | some (vs, r3) => some (x :: vs, r3)
            | none => none
          else some ([x], tail)) = some ([x], tail)
      cases hsw : skipWs tail with
      | nil => rfl
      | cons c r2 =>
        show (if (c == ',') = true then
            match parseItems (g' + 1) r2 with
            | some (vs, r3) => some (x :: vs, r3)
            | none => none
          else some ([x], tail)) = some ([x], tail)
        rw [hcomma c r2 hsw]
        simp only [Bool.false_eq_true, if_false]
    | cons y ys =>
      have hitems : emitPItems (y :: ys) d ++ tail =
          ',' :: ('\n' :: (indentChars d ++ (emitP y d ++ (emitPItems ys d ++ tail)))) := by
        show ((',' :: '\n' :: (indentChars d ++ (emitP y d ++ emitPItems ys d))) ++ tail) = _
        simp [List.append_assoc]
      have hLI := (ih (g' + 1) (by omega)).2.1 y ys d ('\n' :: indentChars d) tail
        (by
          have h2 := mJ_pos x
          simp only [mItems] at hm
          have h3 := mItems_lower y ys
          omega)
        (by
          intro c hc
          rcases List.mem_cons.mp hc with h | h
          · subst h; decide
          · exact indentChars_ws _ c h)
        htail hcomma
      rw [List.cons_append] at hLI
      show (match skipWs (emitPItems (y :: ys) d ++ tail) with
        | [] => some ([x], emitPItems (y :: ys) d ++ tail)
        | c :: r2 =>
          if c == ',' then
            match parseItems (g' + 1) r2 with
            | some (vs, r3) => some (x :: vs, r3)
            | none => none
          else some ([x], emitPItems (y :: ys) d ++ tail)) =
          some (x :: y :: ys, tail)
      rw [hitems, skipWs_cons_not (by decide)]
      show (if ((',' : Char) == ',') = true then
          match parseItems (g' + 1)
            ('\n' :: (indentChars d ++ (emitP y d ++ (emitPItems ys d ++ tail)))) with
          | some (vs, r3) => some (x :: vs, r3)
          | none => none
        else some ([x], emitPItems (y :: ys) d ++ tail)) = some (x :: y :: ys, tail)
      rw [if_pos (by decide), hLI]
  · -- fields
    intro f fs d ws tail hm hws htail hcomma
    obtain ⟨k, v⟩ := f
    cases fuel with
    | zero =>
      refine absurd hm ?_
      have h1 : 1 + mJ v ≤ mFields (k, v) fs := mFields_lower (k, v) fs
      have h2 := mJ_pos v
      omega
    | succ g =>
    obtain ⟨g', rfl⟩ : ∃ g', g = g' + 1 := by
      have h1 : 1 + mJ v ≤ mFields (k, v) fs := mFields_lower (k, v) fs
      have h2 := mJ_pos v
      cases g with
      | zero => omega
      | succ gg => exact ⟨gg, rfl⟩
    have hmv : mJ v ≤ g' + 1 := by
      have h1 : 1 + mJ v ≤ mFields (k, v) fs := mFields_lower (k, v) fs
      omega
    have hfield : emitPField (k, v) d ++ (emitPFields fs d ++ tail) =
        '"' :: (escapeChars k ++ ('"' :: ':' :: ' ' ::
          (emitP v d ++ (emitPFields fs d ++ tail)))) := by
      show ('"' :: (escapeChars k ++ ('"' :: ':' :: ' ' :: emitP v d))) ++
        (emitPFields fs d ++ tail) = _
      simp [List.append_assoc]
    unfold parseFields
    rw [skipWs_append_ws hws, hfield, skipWs_cons_not (by decide)]
    show (if (('"' : Char) == '"') = true then
        match parseStrBody (escapeChars k ++ ('"' :: ':' :: ' ' ::
          (emitP v d ++ (emitPFields fs d ++ tail)))) with
        | none => none
        | some (kk, r1) =>
          match skipWs r1 with
          | [] => none
          | c2 :: r2 =>
            if c2 == ':' then
              match parseVal (g' + 1) r2 with
              | none => none
              | some (vv, r3) =>
                match skipWs r3 with
                | [] => some ([(kk, vv)], r3)
                | c3 :: r4 =>
                  if c3 == ',' then
                    match parseFields (g' + 1) r4 with
                    | some (gs, r5) => some ((kk, vv) :: gs, r5)
                    | none => none
                  else some ([(kk, vv)], r3)
            else none
      else none) = some ((k, v) :: fs, tail)
    rw [if_pos (by decide),
      parseStrBody_escape k (':' :: ' ' :: (emitP v d ++ (emitPFields fs d ++ tail)))]
    show (match skipWs (':' :: ' ' :: (emitP v d ++ (emitPFields fs d ++ tail))) with
      | [] => none
      | c2 :: r2 =>
        if c2 == ':' then
          match parseVal (g' + 1) r2 with
          | none => none
          | some (vv, r3) =>
            match skipWs r3 with
            | [] => some ([(k, vv)], r3)
            | c3 :: r4 =>
              if c3 == ',' then
                match parseFields (g' + 1) r4 with
                | some (gs, r5) => some ((k, vv) :: gs, r5)
                | none => none
              else some ([(k, vv)], r3)
        else none) = some ((k, v) :: fs, tail)
    rw [skipWs_cons_not (by decide)]
    show (if ((':' : Char) == ':') = true then
        match parseVal (g' + 1) (' ' :: (emitP v d ++ (emitPFields fs d ++ tail))) with
        | none => none
        | some (vv, r3) =>
          match skipWs r3 with
          | [] => some ([(k, vv)], r3)
          | c3 :: r4 =>
            if c3 == ',' then
              match parseFields (g' + 1) r4 with
              | some (gs, r5) => some ((k, vv) :: gs, r5)
              | none => none
            else some ([(k, vv)], r3)
      else none) = some ((k, v) :: fs, tail)
    rw [if_pos (by decide), parseVal_cons_ws (by decide) g' _,
      (ih (g' + 1) (by omega)).1 v d (emitPFields fs d ++ tail) hmv
        (numSafe_emitPFields fs d htail)]
    cases fs with
    | nil =>
      show (match skipWs tail with
        | [] => some ([(k, v)], tail)
        | c3 :: r4 =>
          if c3 == ',' then
            match parseFields (g' + 1) r4 with
            | some (gs, r5) => some ((k, v) :: gs, r5)
            | none => none
          else some ([(k, v)], tail)) = some ([(k, v)], tail)
      cases hsw : skipWs tail with
      | nil => rfl
      | cons c r2 =>
        show (if (c == ',') = true then
            match parseFields (g' + 1) r2 with
            | some (gs, r5) => some ((k, v) :: gs, r5)
            | none => none
          else some ([(k, v)], tail)) = some ([(k, v)], tail)
        rw [hcomma c r2 hsw]
        simp only [Bool.false_eq_true, if_false]
    | cons f2 fs2 =>
      obtain ⟨k2, v2⟩ := f2
      have hfields : emitPFields ((k2, v2) :: fs2) d ++ tail =
          ',' :: ('\n' :: (indentChars d ++ (emitPField (k2, v2) d ++
            (emitPFields fs2 d ++ tail)))) := by
        show ((',' :: '\n' :: (indentChars d ++ (emitPField (k2, v2) d ++
          emitPFields fs2 d))) ++ tail) = _
        simp [List.append_assoc]
      have hLF := (ih (g' + 1) (by omega)).2.2 (k2, v2) fs2 d ('\n' :: indentChars d) tail
        (by
          simp only [mFields] at hm
          have h3 := mFields_lower (k2, v2) fs2
          have h2 := mJ_pos v
          omega)
        (by
          intro c hc
          rcases List.mem_cons.mp hc with h | h
          · subst h; decide
          · exact indentChars_ws _ c h)
        htail hcomma
      rw [List.cons_append] at hLF
      show (match skipWs (emitPFields ((k2, v2) :: fs2) d ++ tail) with
        | [] => some ([(k, v)], emitPFields ((k2, v2) :: fs2) d ++ tail)
        | c3 :: r4 =>
          if c3 == ',' then
            match parseFields (g' + 1) r4 with
            | some (gs, r5) => some ((k, v) :: gs, r5)
            | none => none
          else some ([(k, v)], emitPFields ((k2, v2) :: fs2) d ++ tail)) =
          some ((k, v) :: (k2, v2) :: fs2, tail)
      rw [hfields, skipWs_cons_not (by decide)]
      show (if ((',' : Char) == ',') = true then
          match parseFields (g' + 1)
            ('\n' :: (indentChars d ++ (emitPField (k2, v2) d ++
              (emitPFields fs2 d ++ tail)))) with
          | some (gs, r5) => some ((k, v) :: gs, r5)
          | none => none
        else some ([(k, v)], emitPFields ((k2, v2) :: fs2) d ++ tail)) =
          some ((k, v) :: (k2, v2) :: fs2, tail)
      rw [if_pos (by decide), hLF]

mutual
theorem mJ_le_emitP (v : Json) (d : Nat) : mJ v ≤ (emitP v d).length := by
  cases v with
  | null => simp [mJ, emitP, nullChars]
  | bool b => cases b <;> simp [mJ, emitP, trueChars, falseChars]
  | num i =>
    cases i with
    | ofNat n =>
      show mJ (Json.num (Int.ofNat n)) ≤ (natChars n).length
      simp only [mJ]
      exact List.length_pos.mpr (natChars_ne_nil n)
    | negSucc n =>
      show mJ (Json.num (Int.negSucc n)) ≤ ('-' :: natChars (n + 1)).length
      simp [mJ]
  | str s =>
    show mJ (Json.str s) ≤ ('"' :: (escapeChars s ++ ['"'])).length
    simp [mJ]
  | arr xs =>
    cases xs with
    | nil => simp [mJ, emitP]
    | cons x xs =>
      have h := mItems_le x xs (d + 1)
      simp only [mJ, emitP, List.length_cons, List.length_append]
      omega
  | obj fs =>
    cases fs with
    | nil => simp [mJ, emitP]
    | cons f fs =>
      obtain ⟨k, v⟩ := f
      have h := mFields_le (k, v) fs (d + 1)
      simp only [mJ, emitP, List.length_cons, List.length_append]
      omega
termination_by sizeOf v

theorem mItems_le (x : Json) (xs : List Json) (d : Nat) :
    mItems x xs ≤ 1 + (emitP x d).length + (emitPItems xs d).length := by
  cases xs with
  | nil =>
    have h := mJ_le_emitP x d
    simp only [mItems, emitPItems, List.length_nil]
    omega
  | cons y ys =>
    have h1 := mJ_le_emitP x d
    have h2 := mItems_le y ys d
    simp only [mItems, emitPItems, List.length_cons, List.length_append]
    omega
termination_by sizeOf x + sizeOf xs

theorem mFields_le (f : List Char × Json) (fs : List (List Char × Json)) (d : Nat) :
    mFields f fs ≤ 1 + (emitPField f d).length + (emitPFields fs d).length := by
  obtain ⟨k, v⟩ := f
  cases fs with
  | nil =>
    have h := mJ_le_emitP v d
    simp only [mFields, emitPField, emitPFields, List.length_nil, List.length_cons,
      List.length_append]
    omega
  | cons g gs =>
    obtain ⟨k2, v2⟩ := g
    have h1 := mJ_le_emitP v d
    have h2 := mFields_le (k2, v2) gs d
    simp only [mFields, emitPField, emitPFields, List.length_cons,
      List.length_append] at h2 ⊢
    omega
termination_by sizeOf f.2 + sizeOf fs
end

/-- `JSON.parse` inverts `JSON.stringify(·, null, 2)` on every document of
the model. -/
theorem parseJson_stringifyIndent2 (v : Json) : parseJson (stringifyIndent2 v) = some v := by
  unfold parseJson stringifyIndent2
  have hfuel : mJ v ≤ (String.mk (emitP v 0)).data.length + 1 := by
    have := mJ_le_emitP v 0
    show mJ v ≤ (emitP v 0).length + 1
    omega
  have h := (parse_emit_roundTrip ((String.mk (emitP v 0)).data.length + 1)).1 v 0 []
    hfuel (True.intro : numSafe [])
  rw [List.append_nil] at h
  show (match parseVal ((String.mk (emitP v 0)).data.length + 1) (emitP v 0) with
    | some (w, rest) => if (skipWs rest).isEmpty then some w else none
    | none => none) = some v
  rw [h]
  rfl

/-! ## Provider storage: `saveFile` / `getFile`

Each backend (bucket, container, disk) is a key-value store of string
contents; a write shadows previous content at the same key (silent
overwrite). -/

abbrev StoreState := List (String × String)

def storeGet (st : StoreState) (key : String) : Option String :=
  (st.find? (fun p => p.1 == key)).map (fun p => p.2)

def storePut (st : StoreState) (key content : String) : StoreState :=
  (key, content) :: st

structure SaveResult where
  store : StoreState
  key : String
  filename : String

/-- `S3StorageProvider.saveFile`: `PutObject` of
`JSON.stringify(content, null, 2)` at `` `${this.activePath}/${filename}` ``. -/
def s3SaveFile (pfx : String) (st : StoreState) (filename : String)
    (content : Json) : SaveResult :=
  let key := s3ActivePath pfx ++ "/" ++ filename
  { store := storePut st key (stringifyIndent2 content), key := key, filename := filename }

/-- `S3StorageProvider.getFile`: `GetObject` then `JSON.parse`; `none`
models both `NoSuchKey` and unparseable bytes. -/
def s3GetFile (st : StoreState) (key : String) : Option Json :=
  (storeGet st key).bind (fun content => parseJson content)

/-- `GCSStorageProvider.saveFile`. -/
def gcsSaveFile (pfx : String) (st : StoreState) (filename : String)
    (content : Json) : SaveResult :=
  let key := gcsActivePath pfx ++ "/" ++ filename
  { store := storePut st key (stringifyIndent2 content), key := key, filename := filename }

/-- `GCSStorageProvider.getFile`. -/
def gcsGetFile (st : StoreState) (key : String) : Option Json :=
  (storeGet st key).bind (fun content => parseJson content)

/-- `AzureStorageProvider.saveFile` (`activePath` computed as in GCS). -/
def azureSaveFile (pfx : String) (st : StoreState) (filename : String)
    (content : Json) : SaveResult :=
  let key := gcsActivePath pfx ++ "/" ++ filename
  { store := storePut st key (stringifyIndent2 content), key := key, filename := filename }

/-- `AzureStorageProvider.getFile`. -/
def azureGetFile (st : StoreState) (key : String) : Option Json :=
  (storeGet st key).bind (fun content => parseJson content)

/-- `FilesystemStorageProvider.saveFile`: writes at
`path.join(this.activePath, filename)` — an absolute path — and returns
that path as the key. -/
def fsSaveFile (basePath pfx : String) (st : StoreState) (filename : String)
    (content : Json) : SaveResult :=
  let filePath := pathJoin (fsActivePath basePath pfx) filename
  { store := storePut st filePath (stringifyIndent2 content), key := filePath,
    filename := filename }

/-- `FilesystemStorageProvider.getFile`: reads at
`path.join(this.basePath, key)` — it joins the caller's key onto the
resolved base path (it does NOT treat an absolute key specially). -/
def fsGetFile (basePath : String) (st : StoreState) (key : String) : Option Json :=
  (storeGet st (pathJoin (pathResolve basePath) key)).bind (fun content => parseJson content)

theorem storeGet_storePut (st : StoreState) (key content : String) :
    storeGet (storePut st key content) key = some content := by
  simp [storeGet, storePut, List.find?]

/-! ## Upload handler (`POST /api/files/upload`) -/

def MAX_FILE_SIZE : Nat := 10 * 1024 * 1024

/-- JS truthiness of a JSON value (`!content`, `!content.Results`). -/
def jsTruthy : Json → Bool
  | .null => false
  | .bool b => b
  | .num n => n != 0
  | .str s => !s.isEmpty
  | .arr _ => true
  | .obj _ => true

/-- JS property read `c[name]`; on a parsed JSON object a duplicate key
keeps its last occurrence. -/
def jsGet : Json → String → Option Json
  | .obj fs, name => ((fs.reverse).find? (fun f => f.1 == name.data)).map (fun f => f.2)
  | _, _ => none

/-- `content.Results && Array.isArray(content.Results)`: passes exactly
when the field exists and is an array (arrays are always truthy). -/
def hasResultsArray (c : Json) : Bool :=
  match jsGet c "Results" with
  | some (.arr _) => true
  | _ => false

inductive UploadOutcome where
  | rejected (msg : String)
  | saved (filename : String) (content : Json)

/-- The decision logic of the upload handler (server.js 71-96), checks in
source order: required fields, filename regex, byte length of the COMPACT
serialization against 10 MiB, `Results` array; only then `saveFile`. -/
def uploadHandler (filename : String) (content : Option Json) : UploadOutcome :=
  match content with
  | none => .rejected "Filename and content are required"
  | some c =>
    if filename == "" || !jsTruthy c then .rejected "Filename and content are required"
    else if !validFilename filename then
      .rejected "Invalid filename"
    else if MAX_FILE_SIZE < byteLen (stringifyCompact c) then
      .rejected "File content exceeds 10 MiB limit"
    else if !hasResultsArray c then
      .rejected "Invalid Trivy report format"
    else .saved filename c

/-- Whether the outcome reaches `storageProvider.saveFile`. -/
def savesFile : UploadOutcome → Bool
  | .saved _ _ => true
  | .rejected _ => false

/-! ## Archive handler (`POST /api/files/archive`) -/

inductive StorageOp where
  | copy (src dst : String)
  | delete (key : String)
deriving DecidableEq

structure ArchiveResponse where
  trace : List StorageOp
  originalKey : String
  archivedKey : String
deriving DecidableEq

/-- The logic of the archive handler (server.js 110-137): a key not
starting with `activePath` is joined onto it; the archived key is
`` `${archivedPath}/${basename}.${isoDate}` ``; the provider is asked to
copy, then to delete; the response reports both keys.  `none` is the 400
for a missing key; `isoDate` stands for `new Date().toISOString()`. -/
def archiveHandler (activePath archivedPath key isoDate : String) :
    Option ArchiveResponse :=
  if key = "" then none
  else
    let key2 := if jsStartsWith key activePath then key else pathJoin activePath key
    let archivedKey := archivedPath ++ "/" ++ pathBasename key2 ++ "." ++ isoDate
    some { trace := [.copy key2 archivedKey, .delete key2],
           originalKey := key2, archivedKey := archivedKey }

/-! ## Claim C8: invalid upload content is rejected before any write -/

/-- C8: when the content lacks a `Results` array or its compact
serialization exceeds 10 MiB, the upload handler rejects the request and
`saveFile` is never reached (this holds for every filename; the two guards
both precede the save). -/
theorem C8_upload_guard (filename : String) (c : Json)
    (h : hasResultsArray c = false ∨ MAX_FILE_SIZE < byteLen (stringifyCompact c)) :
    savesFile (uploadHandler filename (some c)) = false := by
  have hred : uploadHandler filename (some c) =
      (if filename == "" || !jsTruthy c then
        UploadOutcome.rejected "Filename and content are required"
      else if !validFilename filename then UploadOutcome.rejected "Invalid filename"
      else if MAX_FILE_SIZE < byteLen (stringifyCompact c) then
        UploadOutcome.rejected "File content exceeds 10 MiB limit"
      else if !hasResultsArray c then UploadOutcome.rejected "Invalid Trivy report format"
      else UploadOutcome.saved filename c) := rfl
  rw [hred]
  by_cases h1 : (filename == "" || !jsTruthy c) = true
  · rw [if_pos h1]; rfl
  · rw [if_neg h1]
    by_cases h2 : (!validFilename filename) = true
    · rw [if_pos h2]; rfl
    · rw [if_neg h2]
      by_cases h3 : MAX_FILE_SIZE < byteLen (stringifyCompact c)
      · rw [if_pos h3]; rfl
      · rw [if_neg h3]
        rcases h with h | h
        · rw [if_pos (by rw [h]; rfl)]; rfl
        · exact absurd h h3

/-- C8 witness: content `{}` (no `Results` field) with a valid filename is
rejected without a write. -/
theorem C8_upload_guard_witness :
    savesFile (uploadHandler "report.json" (some (Json.obj []))) = false :=
  C8_upload_guard "report.json" (Json.obj []) (Or.inl (by decide))

/-! ## Claim C9: the archive flow -/

/-- C9: for a non-empty key, archiving normalizes the key (a key not
starting with `activePath` is `path.join`ed onto it), archives at
`archivedPath ++ "/" ++ basename ++ "." ++ isoDate`, performs the copy to
the archived key BEFORE the delete of the original, and reports exactly
that originalKey and archivedKey. -/
theorem C9_archive (activePath archivedPath key isoDate : String) (hk : key ≠ "") :
    ∃ r, archiveHandler activePath archivedPath key isoDate = some r ∧
      r.originalKey = (if jsStartsWith key activePath then key
        else pathJoin activePath key) ∧
      r.archivedKey = archivedPath ++ "/" ++ pathBasename r.originalKey ++ "." ++ isoDate ∧
      r.trace = [.copy r.originalKey r.archivedKey, .delete r.originalKey] := by
  unfold archiveHandler
  rw [if_neg hk]
  exact ⟨_, rfl, rfl, rfl, rfl⟩

/-- C9 witness: a relative key `report.json` against an S3-style layout. -/
theorem C9_archive_witness :
    ∃ r, archiveHandler "pref/active" "pref/archived" "report.json"
        "2024-01-01T00:00:00.000Z" = some r ∧
      r.originalKey = (if jsStartsWith "report.json" "pref/active" then "report.json"
        else pathJoin "pref/active" "report.json") ∧
      r.archivedKey = "pref/archived" ++ "/" ++ pathBasename r.originalKey ++ "." ++
        "2024-01-01T00:00:00.000Z" ∧
      r.trace = [.copy r.originalKey r.archivedKey, .delete r.originalKey] :=
  C9_archive "pref/active" "pref/archived" "report.json" "2024-01-01T00:00:00.000Z"
    (by decide)

/-! ## Claim C4: save/get round trip per provider -/

/-- C4 counterexample: the filesystem provider with base path `/data`
saves `f.json` at the absolute key `/data/active/f.json`, but `getFile` on
exactly that returned key reads
`path.join("/data", "/data/active/f.json") = "/data/data/active/f.json"`
— a different path — so the round trip returns nothing instead of the
saved document. -/
theorem C4_counterexample :
    (fsSaveFile "/data" "" [] "f.json" (Json.bool true)).key = "/data/active/f.json" ∧
      pathJoin (pathResolve "/data") "/data/active/f.json" =
        "/data/data/active/f.json" ∧
      fsGetFile "/data" (fsSaveFile "/data" "" [] "f.json" (Json.bool true)).store
        (fsSaveFile "/data" "" [] "f.json" (Json.bool true)).key = none := by
  refine ⟨by decide, by decide, ?_⟩
  rfl

/-- C4 amended: `getFile ∘ saveFile` returns a document structurally equal
to the saved one for the S3, GCS and Azure providers (for every document
on which the serializer model is faithful, i.e. control-character-free
strings).  For the filesystem provider the round trip holds only when
`path.join(basePath, key)` maps the returned absolute key to itself (e.g.
base `/`); otherwise `getFile` reads a different path (the
counterexample). -/
theorem C4_save_get_roundTrip :
    (∀ pfx st filename c, jsonWf c = true →
      s3GetFile (s3SaveFile pfx st filename c).store
        (s3SaveFile pfx st filename c).key = some c) ∧
    (∀ pfx st filename c, jsonWf c = true →
      gcsGetFile (gcsSaveFile pfx st filename c).store
        (gcsSaveFile pfx st filename c).key = some c) ∧
    (∀ pfx st filename c, jsonWf c = true →
      azureGetFile (azureSaveFile pfx st filename c).store
        (azureSaveFile pfx st filename c).key = some c) ∧
    (∀ basePath pfx st filename c, jsonWf c = true →
      pathJoin (pathResolve basePath) (fsSaveFile basePath pfx st filename c).key =
        (fsSaveFile basePath pfx st filename c).key →
      fsGetFile basePath (fsSaveFile basePath pfx st filename c).store
        (fsSaveFile basePath pfx st filename c).key = some c) := by
  have hcore : ∀ (st : StoreState) (key : String) (c : Json),
      (storeGet (storePut st key (stringifyIndent2 c)) key).bind
        (fun content => parseJson content) = some c := by
    intro st key c
    rw [storeGet_storePut]
    show parseJson (stringifyIndent2 c) = some c
    exact parseJson_stringifyIndent2 c
  refine ⟨fun pfx st f c _ => hcore st _ c, fun pfx st f c _ => hcore st _ c,
    fun pfx st f c _ => hcore st _ c, ?_⟩
  intro basePath pfx st f c _ hfix
  unfold fsGetFile
  rw [hfix]
  exact hcore st _ c

/-- A small well-formed report document. -/
def c4doc : Json :=
  Json.obj [(['R', 'e', 's', 'u', 'l', 't', 's'],
    Json.arr [Json.num 1, Json.str ['o', 'k']])]

/-- C4 witness: the S3 round trip evaluated on a concrete report. -/
theorem C4_save_get_roundTrip_witness :
    s3GetFile (s3SaveFile "pref" [] "r.json" c4doc).store
      (s3SaveFile "pref" [] "r.json" c4doc).key = some c4doc :=
  C4_save_get_roundTrip.1 "pref" [] "r.json" c4doc
    (by simp [c4doc, jsonWf, jsonWfFields, jsonWfList, plainChar])

/-! ## Claim C10: compact size check vs pretty write -/

/-- UTF-8 byte count of a character list. -/
def sumBytes (cs : List Char) : Nat := (cs.map Char.utf8Size).sum

theorem sumBytes_append (a b : List Char) :
    sumBytes (a ++ b) = sumBytes a + sumBytes b := by
  simp [sumBytes]

theorem sumBytes_cons (c : Char) (cs : List Char) :
    sumBytes (c :: cs) = c.utf8Size + sumBytes cs := by
  simp [sumBytes]

theorem sumBytes_indent (d : Nat) : sumBytes (indentChars d) = 2 * d := by
  simp only [sumBytes, indentChars, List.map_replicate, List.sum_replicate, smul_eq_mul]
  rw [show (' ' : Char).utf8Size = 1 from by decide]
  ring

theorem emitC_num0 : emitC (Json.num 0) = ['0'] := by
  show emitC (Json.num (Int.ofNat 0)) = ['0']
  simp [emitC, intChars, natChars]

theorem emitP_num0 (d : Nat) : emitP (Json.num 0) d = ['0'] := by
  show emitP (Json.num (Int.ofNat 0)) d = ['0']
  simp [emitP, intChars, natChars]

theorem emitCItems_zeros (m : Nat) :
    sumBytes (emitCItems (List.replicate m (Json.num 0))) = 2 * m := by
  induction m with
  | zero => simp [emitCItems, sumBytes]
  | succ k ih =>
    rw [List.replicate_succ]
    rw [show emitCItems (Json.num 0 :: List.replicate k (Json.num 0)) =
      ',' :: (emitC (Json.num 0) ++ emitCItems (List.replicate k (Json.num 0))) from by
        simp [emitCItems]]
    rw [sumBytes_cons, sumBytes_append, emitC_num0, ih]
    rw [show (',' : Char).utf8Size = 1 from by decide]
    rw [show sumBytes ['0'] = 1 from by decide]
    omega

theorem emitPItems_zeros (m d : Nat) :
    sumBytes (emitPItems (List.replicate m (Json.num 0)) d) = (3 + 2 * d) * m := by
  induction m with
  | zero => simp [emitPItems, sumBytes]
  | succ k ih =>
    rw [List.replicate_succ]
    rw [show emitPItems (Json.num 0 :: List.replicate k (Json.num 0)) d =
      ',' :: '\n' :: (indentChars d ++ (emitP (Json.num 0) d ++
        emitPItems (List.replicate k (Json.num 0)) d)) from by simp [emitPItems]]
    rw [sumBytes_cons, sumBytes_cons, sumBytes_append, sumBytes_append,
      sumBytes_indent, emitP_num0 d, ih]
    rw [show (',' : Char).utf8Size = 1 from by decide]
    rw [show ('\n' : Char).utf8Size = 1 from by decide]
    rw [show sumBytes ['0'] = 1 from by decide]
    ring

/-- The `Results` key. -/
def resultsKey : List Char := ['R', 'e', 's', 'u', 'l', 't', 's']

/-- A report with `n` zero entries in its `Results` array. -/
def mkReport (n : Nat) : Json :=
  Json.obj [(resultsKey, Json.arr (List.replicate n (Json.num 0)))]

theorem bytes_emitC_mkReport (n : Nat) (hn : 1 ≤ n) :
    sumBytes (emitC (mkReport n)) = 2 * n + 13 := by
  obtain ⟨m, rfl⟩ : ∃ m, n = m + 1 := ⟨n - 1, by omega⟩
  rw [mkReport, List.replicate_succ]
  rw [show emitC (Json.obj [(resultsKey, Json.arr (Json.num 0 ::
      List.replicate m (Json.num 0)))]) =
    '{' :: (emitCField (resultsKey, Json.arr (Json.num 0 ::
      List.replicate m (Json.num 0))) ++ (emitCFields [] ++ ['}'])) from by
    simp [emitC]]
  rw [show emitCField (resultsKey, Json.arr (Json.num 0 ::
      List.replicate m (Json.num 0))) =
    '"' :: (escapeChars resultsKey ++ ('"' :: ':' :: emitC (Json.arr (Json.num 0 ::
      List.replicate m (Json.num 0))))) from by simp [emitCField]]
  rw [show emitC (Json.arr (Json.num 0 :: List.replicate m (Json.num 0))) =
    '[' :: (emitC (Json.num 0) ++ (emitCItems (List.replicate m (Json.num 0)) ++
      [']'])) from by simp [emitC]]
  rw [show escapeChars resultsKey = resultsKey from by decide]
  rw [show emitCFields ([] : List (List Char × Json)) = [] from by simp [emitCFields]]
  rw [emitC_num0]
  simp only [sumBytes_cons, sumBytes_append]
  rw [emitCItems_zeros m]
  simp only [show sumBytes resultsKey = 7 from by decide,
    show sumBytes ([] : List Char) = 0 from by decide,
    show ('{' : Char).utf8Size = 1 from by decide,
    show ('"' : Char).utf8Size = 1 from by decide,
    show (':' : Char).utf8Size = 1 from by decide,
    show ('[' : Char).utf8Size = 1 from by decide,
    show (']' : Char).utf8Size = 1 from by decide,
    show ('}' : Char).utf8Size = 1 from by decide,
    show ('0' : Char).utf8Size = 1 from by decide]
  ring

theorem bytes_emitP_mkReport (n : Nat) (hn : 1 ≤ n) :
    sumBytes (emitP (mkReport n) 0) = 7 * n + 21 := by
  obtain ⟨m, rfl⟩ : ∃ m, n = m + 1 := ⟨n - 1, by omega⟩
  rw [mkReport, List.replicate_succ]
  rw [show emitP (Json.obj [(resultsKey, Json.arr (Json.num 0 ::
      List.replicate m (Json.num 0)))]) 0 =
    '{' :: '\n' :: (indentChars 1 ++ (emitPField (resultsKey, Json.arr (Json.num 0 ::
      List.replicate m (Json.num 0))) 1 ++ (emitPFields [] 1 ++
        ('\n' :: (indentChars 0 ++ ['}']))))) from by simp [emitP]]
  rw [show emitPField (resultsKey, Json.arr (Json.num 0 ::
      List.replicate m (Json.num 0))) 1 =
    '"' :: (escapeChars resultsKey ++ ('"' :: ':' :: ' ' :: emitP (Json.arr (Json.num 0 ::
      List.replicate m (Json.num 0))) 1)) from by simp [emitPField]]
  rw [show emitP (Json.arr (Json.num 0 :: List.replicate m (Json.num 0))) 1 =
    '[' :: '\n' :: (indentChars 2 ++ (emitP (Json.num 0) 2 ++
      (emitPItems (List.replicate m (Json.num 0)) 2 ++
        ('\n' :: (indentChars 1 ++ [']']))))) from by simp [emitP]]
  rw [show escapeChars resultsKey = resultsKey from by decide]
  rw [show emitPFields ([] : List (List Char × Json)) 1 = [] from by simp [emitPFields]]
  rw [emitP_num0]
  simp only [sumBytes_cons, sumBytes_append]
  rw [emitPItems_zeros m 2, sumBytes_indent, sumBytes_indent, sumBytes_indent]
  simp only [show sumBytes resultsKey = 7 from by decide,
    show sumBytes ([] : List Char) = 0 from by decide,
    show ('{' : Char).utf8Size = 1 from by decide,
    show ('"' : Char).utf8Size = 1 from by decide,
    show (':' : Char).utf8Size = 1 from by decide,
    show ('[' : Char).utf8Size = 1 from by decide,
    show (']' : Char).utf8Size = 1 from by decide,
    show ('}' : Char).utf8Size = 1 from by decide,
    show ('0' : Char).utf8Size = 1 from by decide,
    show (' ' : Char).utf8Size = 1 from by decide,
    show ('\n' : Char).utf8Size = 1 from by decide]
  ring

theorem byteLen_compact (c : Json) : byteLen (stringifyCompact c) = sumBytes (emitC c) := rfl

theorem byteLen_pretty (c : Json) : byteLen (stringifyIndent2 c) = sumBytes (emitP c 0) := rfl

/-- C10: the upload size check measures the compact serialization, while
every provider's `saveFile` stores the two-space-indented serialization at
the returned key; the report with two million zero results passes the
check (compact ≈ 4 MB) yet the bytes written are ≈ 14 MB > 10 MiB. -/
theorem C10_compact_check_pretty_write :
    (∀ pfx st filename c,
      storeGet (s3SaveFile pfx st filename c).store (s3SaveFile pfx st filename c).key =
        some (stringifyIndent2 c)) ∧
    (∀ pfx st filename c,
      storeGet (gcsSaveFile pfx st filename c).store
        (gcsSaveFile pfx st filename c).key = some (stringifyIndent2 c)) ∧
    (∀ pfx st filename c,
      storeGet (azureSaveFile pfx st filename c).store
        (azureSaveFile pfx st filename c).key = some (stringifyIndent2 c)) ∧
    (∀ basePath pfx st filename c,
      storeGet (fsSaveFile basePath pfx st filename c).store
        (fsSaveFile basePath pfx st filename c).key = some (stringifyIndent2 c)) ∧
    (∃ c : Json, savesFile (uploadHandler "report.json" (some c)) = true ∧
      byteLen (stringifyCompact c) ≤ MAX_FILE_SIZE ∧
      MAX_FILE_SIZE < byteLen (stringifyIndent2 c)) := by
  refine ⟨fun pfx st f c => storeGet_storePut st _ _,
    fun pfx st f c => storeGet_storePut st _ _,
    fun pfx st f c => storeGet_storePut st _ _,
    fun basePath pfx st f c => storeGet_storePut st _ _, ?_⟩
  refine ⟨mkReport 2000000, ?_, ?_, ?_⟩
  · have hred : uploadHandler "report.json" (some (mkReport 2000000)) =
        (if ("report.json" : String) == "" || !jsTruthy (mkReport 2000000) then
          UploadOutcome.rejected "Filename and content are required"
        else if !validFilename "report.json" then UploadOutcome.rejected "Invalid filename"
        else if MAX_FILE_SIZE < byteLen (stringifyCompact (mkReport 2000000)) then
          UploadOutcome.rejected "File content exceeds 10 MiB limit"
        else if !hasResultsArray (mkReport 2000000) then
          UploadOutcome.rejected "Invalid Trivy report format"
        else UploadOutcome.saved "report.json" (mkReport 2000000)) := rfl
    rw [hred]
    rw [if_neg (by decide), if_neg (by decide)]
    rw [byteLen_compact, bytes_emitC_mkReport 2000000 (by norm_num)]
    rw [if_neg (by norm_num [MAX_FILE_SIZE])]
    rw [if_neg (by decide)]
    rfl
  · rw [byteLen_compact, bytes_emitC_mkReport 2000000 (by norm_num)]
    norm_num [MAX_FILE_SIZE]
  · rw [byteLen_pretty, bytes_emitP_mkReport 2000000 (by norm_num)]
    norm_num [MAX_FILE_SIZE]

end TrivyViewer
